import Mathlib

/-!
Verification of the language-server-diagram-tool repository.

The definitions below are shallow embeddings of the TypeScript sources:
* `src/lsif/jsonStoreEnhanced.ts` (and its drafts `src/unnamed/part_002`,
  `part_003`, `part_004`): the enhanced LSIF store — attach-edge traversal,
  moniker uniqueness selection, range location, location rendering;
* `src/lsif/extract-react-component-diagram.mts` (and draft `part_005`):
  the extraction script — tsc-moniker resolution, element synthesis with
  duplicate-result-set skipping, the relation pass, and the DSL emitter.

External collaborators (the vendored `lsif-server-modules` base class, the
`lsif-sqlite` uniqueness table, the `@likec4/core` model index, and the
`inflection`/URI-escaping string helpers) are not part of `src/`; where a
claim depends on them they are modelled from the specification, with a doc
comment marking each such definition.
-/

namespace DiagramTool

/-! ## Basic LSP/LSIF data model -/

/-- An LSP position: zero-based line and character (`vscode-languageserver-protocol`). -/
structure Position where
  line : Nat
  character : Nat
deriving DecidableEq, Repr

/-- An LSP range with start and end positions (`end` is a Lean keyword, hence `end_`). -/
structure LspRange where
  start : Position
  end_ : Position
deriving DecidableEq, Repr

/-- The LSIF moniker vertex fields used by the repository: `id`, `scheme`,
`identifier` and the `unique` (uniqueness level) string. -/
structure Moniker where
  id : Nat
  scheme : String
  identifier : String
  unique : String
deriving DecidableEq, Repr

/-! ## Moniker uniqueness ranking and attach-edge traversal

Embedding of `getAlternateMonikers` / `getMostUniqueMoniker` from
`src/lsif/jsonStoreEnhanced.ts` lines 151-173 (identical in
`src/unnamed/part_002` lines 254-259 and 330-342).  The store state that
these methods read is the `in.attach` map (moniker id to the moniker
attached to it), embedded as a function `Nat → Option Moniker`.

The `while ((nextMoniker = attach.get(nextMoniker.id)) !== undefined)` loop
has no termination guard in the source; it is embedded fuel-indexed, where
`none` means the loop has not finished within the given number of
iterations.  A run that returns `none` for every fuel bound is a
non-terminating loop. -/

/-- Modelled from the spec: the ranking table `monikerUniqueShortForms` is
supplied by the external `lsif-sqlite/lib/compress` library (not repository
code); the spec fixes the order
local < group < document < project < package < scheme < global and calls the
exact table an externally-supplied configuration point. -/
def monikerUniqueShortForms : String → Option Int := fun u =>
  if u = "local" then some 0
  else if u = "group" then some 1
  else if u = "document" then some 2
  else if u = "project" then some 3
  else if u = "package" then some 4
  else if u = "scheme" then some 5
  else if u = "global" then some 6
  else none

/-- `monikerUniqueShortForms.get(m.unique) ?? -1` from the selection in
`getMostUniqueMoniker`. -/
def uniqueRank (m : Moniker) : Int :=
  (monikerUniqueShortForms m.unique).getD (-1)

/-- The attach-chain loop of `getAlternateMonikers` (jsonStoreEnhanced.ts
lines 153-156; `followAttachEdges` in part_002 lines 254-259), fuel-indexed:
`some l` is the list of monikers pushed when the loop finishes within `fuel`
iterations, `none` means the loop is still running after `fuel` iterations. -/
def followAttach (attach : Nat → Option Moniker) : Nat → Moniker → Option (List Moniker)
  | 0, _ => none
  | fuel + 1, m =>
    match attach m.id with
    | none => some []
    | some m2 => (followAttach attach fuel m2).map (fun l => m2 :: l)

/-- The `alternateMonikers.reduce((a, b) => rank a > rank b ? a : b)` step of
`getMostUniqueMoniker` (jsonStoreEnhanced.ts lines 167-171): JavaScript
`reduce` without an initial value starts from the head and folds the tail. -/
def reduceMostUnique (a : Moniker) (l : List Moniker) : Moniker :=
  l.foldl (fun a b => if uniqueRank a > uniqueRank b then a else b) a

/-- `getMostUniqueMoniker` (jsonStoreEnhanced.ts lines 161-173): collect the
alternate monikers (the attach chain), return the input when there are none,
otherwise reduce over the alternates only. -/
def getMostUniqueMonikerF (attach : Nat → Option Moniker) (fuel : Nat) (m : Moniker) :
    Option Moniker :=
  (followAttach attach fuel m).map (fun alts =>
    match alts with
    | [] => m
    | a :: rest => reduceMostUnique a rest)

/-! ### Helper lemmas about the reduce step -/

theorem reduceMostUnique_cons (a b : Moniker) (l : List Moniker) :
    reduceMostUnique a (b :: l) =
      reduceMostUnique (if uniqueRank a > uniqueRank b then a else b) l := by
  simp [reduceMostUnique, List.foldl_cons]

/-- The JavaScript reduce with `(a, b) => rank a > rank b ? a : b` returns the
last element of `a :: l` attaining the maximal rank: the list splits around the
result, everything before it has rank at most the result's, everything after it
has strictly smaller rank. -/
theorem reduceMostUnique_lastMax (l : List Moniker) :
    ∀ a : Moniker, ∃ l1 l2, a :: l = l1 ++ reduceMostUnique a l :: l2
      ∧ (∀ x ∈ l1, uniqueRank x ≤ uniqueRank (reduceMostUnique a l))
      ∧ (∀ x ∈ l2, uniqueRank x < uniqueRank (reduceMostUnique a l)) := by
  induction l with
  | nil =>
    intro a
    exact ⟨[], [], by simp [reduceMostUnique]⟩
  | cons b t ih =>
    intro a
    rw [reduceMostUnique_cons]
    by_cases h : uniqueRank a > uniqueRank b
    · rw [if_pos h]
      obtain ⟨l1, l2, hdec, hle, hlt⟩ := ih a
      generalize hR : reduceMostUnique a t = R at hdec hle hlt ⊢
      cases l1 with
      | nil =>
        simp only [List.nil_append] at hdec
        injection hdec with h1 h2
        refine ⟨[], b :: l2, ?_, ?_, ?_⟩
        · rw [← h1, ← h2]; simp
        · intro x hx; simp at hx
        · intro x hx
          rcases List.mem_cons.mp hx with rfl | hx
          · rw [← h1]; exact h
          · exact hlt x hx
      | cons a' l1' =>
        injection hdec with h1 h2
        refine ⟨a :: b :: l1', l2, ?_, ?_, hlt⟩
        · rw [h2]; simp
        · intro x hx
          rcases List.mem_cons.mp hx with rfl | hx
          · rw [h1]; exact hle a' (by simp)
          · rcases List.mem_cons.mp hx with rfl | hx
            · calc uniqueRank x ≤ uniqueRank a := le_of_lt h
                _ = uniqueRank a' := by rw [h1]
                _ ≤ _ := hle a' (by simp)
            · exact hle x (by simp [hx])
    · rw [if_neg h]
      push_neg at h
      obtain ⟨l1, l2, hdec, hle, hlt⟩ := ih b
      generalize hR : reduceMostUnique b t = R at hdec hle hlt ⊢
      cases l1 with
      | nil =>
        simp only [List.nil_append] at hdec
        injection hdec with h1 h2
        refine ⟨[a], l2, ?_, ?_, ?_⟩
        · rw [← h1, ← h2]; simp
        · intro x hx
          rcases List.mem_cons.mp hx with rfl | hx
          · rw [← h1]; exact h
          · simp at hx
        · intro x hx; exact hlt x hx
      | cons b' l1' =>
        injection hdec with h1 h2
        refine ⟨a :: b :: l1', l2, ?_, ?_, hlt⟩
        · rw [h2]; simp
        · intro x hx
          rcases List.mem_cons.mp hx with rfl | hx
          · calc uniqueRank x ≤ uniqueRank b := h
              _ = uniqueRank b' := by rw [h1]
              _ ≤ _ := hle b' (by simp)
          · rcases List.mem_cons.mp hx with rfl | hx
            · calc uniqueRank x = uniqueRank b' := by rw [h1]
                _ ≤ _ := hle b' (by simp)
            · exact hle x (by simp [hx])

/-! ### Inversion lemmas for the fuel-indexed attach-chain loop -/

theorem followAttach_succ_none {attach : Nat → Option Moniker} {m : Moniker} {fuel : Nat}
    (h : attach m.id = none) : followAttach attach (fuel + 1) m = some [] := by
  simp [followAttach, h]

theorem followAttach_succ_some {attach : Nat → Option Moniker} {m m2 : Moniker} {fuel : Nat}
    (h : attach m.id = some m2) :
    followAttach attach (fuel + 1) m = (followAttach attach fuel m2).map (fun l => m2 :: l) := by
  simp [followAttach, h]

theorem followAttach_nil_inv {attach : Nat → Option Moniker} {fuel : Nat} {m : Moniker}
    (h : followAttach attach (fuel + 1) m = some []) : attach m.id = none := by
  cases ha : attach m.id with
  | none => rfl
  | some m2 =>
    rw [followAttach_succ_some ha] at h
    cases hk : followAttach attach fuel m2 with
    | none => rw [hk] at h; simp at h
    | some l => rw [hk] at h; simp at h

theorem followAttach_cons_inv {attach : Nat → Option Moniker} {fuel : Nat} {m a : Moniker}
    {rest : List Moniker} (h : followAttach attach (fuel + 1) m = some (a :: rest)) :
    attach m.id = some a ∧ followAttach attach fuel a = some rest := by
  cases ha : attach m.id with
  | none => rw [followAttach_succ_none ha] at h; simp at h
  | some m2 =>
    rw [followAttach_succ_some ha] at h
    cases hk : followAttach attach fuel m2 with
    | none => rw [hk] at h; simp at h
    | some l =>
      rw [hk] at h
      simp at h
      obtain ⟨h1, h2⟩ := h
      rw [h1, h2] at hk
      exact ⟨by rw [h1], hk⟩

/-! ### Claim C1 -/

/-- Counterexample data for C1/C2: a moniker whose own uniqueness level is
strictly higher than its only alternate's. -/
def cxM1 : Moniker := ⟨1, "tsc", "a", "scheme"⟩

def cxM2 : Moniker := ⟨2, "tsc", "b", "local"⟩

def cxAttach : Nat → Option Moniker := fun i => if i = 1 then some cxM2 else none

/-- Counterexample data for the tie-break part of C1: two alternates with equal
rank; the claim's first-seen tie-break would pick `cxN1`. -/
def cxN0 : Moniker := ⟨10, "tsc", "n0", "local"⟩

def cxN1 : Moniker := ⟨11, "tsc", "n1", "scheme"⟩

def cxN2 : Moniker := ⟨12, "tsc", "n2", "scheme"⟩

def cxAttach2 : Nat → Option Moniker := fun i =>
  if i = 10 then some cxN1 else if i = 11 then some cxN2 else none

/-- C1 counterexample: `getMostUniqueMoniker` does not select over
`{M} ∪ alternateMonikers(M)`.  First part: `cxM1` has uniqueness level
`scheme`, its single alternate `cxM2` has level `local`, yet the function
returns `cxM2`, not `cxM1`.  Second part: with alternates
`[cxN1, cxN2]` of equal rank the function returns the later `cxN2`,
not the first-seen candidate `cxN1`. -/
theorem C1_mostUnique_counterexample :
    followAttach cxAttach 5 cxM1 = some [cxM2]
    ∧ uniqueRank cxM2 < uniqueRank cxM1
    ∧ getMostUniqueMonikerF cxAttach 5 cxM1 = some cxM2
    ∧ cxM2 ≠ cxM1
    ∧ followAttach cxAttach2 5 cxN0 = some [cxN1, cxN2]
    ∧ uniqueRank cxN1 = uniqueRank cxN2
    ∧ cxN1 ≠ cxN2
    ∧ getMostUniqueMonikerF cxAttach2 5 cxN0 = some cxN2 := by
  decide

/-- C1 (amended): when the attach-chain traversal finishes, an empty chain
returns the input moniker unchanged; a non-empty chain returns an element of
the chain only (the input moniker itself is never a candidate) that is maximal
in rank among the chain, with ties broken in favour of the last-seen element:
the chain splits around the result with every earlier element of rank at most
the result's and every later element of strictly smaller rank. -/
theorem C1_mostUnique_amended (attach : Nat → Option Moniker) (fuel : Nat) (m : Moniker)
    (alts : List Moniker) (h : followAttach attach fuel m = some alts) :
    (alts = [] → getMostUniqueMonikerF attach fuel m = some m)
    ∧ (∀ a rest, alts = a :: rest →
        ∃ res l1 l2, getMostUniqueMonikerF attach fuel m = some res
          ∧ a :: rest = l1 ++ res :: l2
          ∧ (∀ x ∈ l1, uniqueRank x ≤ uniqueRank res)
          ∧ (∀ x ∈ l2, uniqueRank x < uniqueRank res)) := by
  constructor
  · intro hnil
    subst hnil
    simp [getMostUniqueMonikerF, h]
  · intro a rest hcons
    subst hcons
    obtain ⟨l1, l2, hdec, hle, hlt⟩ := reduceMostUnique_lastMax rest a
    exact ⟨reduceMostUnique a rest, l1, l2, by simp [getMostUniqueMonikerF, h], hdec, hle, hlt⟩

/-- Witness for C1 (amended), instantiated on the concrete counterexample
store: the chain `[cxM2]` is non-empty, and the theorem yields the last-max
decomposition for it. -/
theorem C1_mostUnique_amended_witness :
    ∃ res l1 l2, getMostUniqueMonikerF cxAttach 5 cxM1 = some res
      ∧ cxM2 :: [] = l1 ++ res :: l2
      ∧ (∀ x ∈ l1, uniqueRank x ≤ uniqueRank res)
      ∧ (∀ x ∈ l2, uniqueRank x < uniqueRank res) :=
  (C1_mostUnique_amended cxAttach 5 cxM1 [cxM2] (by decide)).2 cxM2 [] rfl

/-! ### Claim C2 -/

/-- Counterexample data for C2: a two-element attach chain whose first element
has the higher rank. -/
def cxP0 : Moniker := ⟨20, "tsc", "p0", "local"⟩

def cxP1 : Moniker := ⟨21, "tsc", "p1", "scheme"⟩

def cxP2 : Moniker := ⟨22, "tsc", "p2", "local"⟩

def cxAttach3 : Nat → Option Moniker := fun i =>
  if i = 20 then some cxP1 else if i = 21 then some cxP2 else none

/-- C2 counterexample: `getMostUniqueMoniker` is not idempotent.  On the chain
`cxP0 → cxP1 → cxP2` (ranks local, scheme, local) the first application
returns `cxP1`, but applying the function to `cxP1` returns `cxP2` —
because the result of the first call is never itself a candidate of the
second call, whose candidate set is `cxP1`'s own (non-empty) attach chain. -/
theorem C2_idempotent_counterexample :
    getMostUniqueMonikerF cxAttach3 5 cxP0 = some cxP1
    ∧ getMostUniqueMonikerF cxAttach3 5 cxP1 = some cxP2
    ∧ cxP2 ≠ cxP1 := by
  decide

/-- C2 (amended): `getMostUniqueMoniker` is idempotent whenever the input's
attach chain has at most one element (in particular whenever it is empty);
with longer chains idempotence fails (see the counterexample). -/
theorem C2_idempotent_amended (attach : Nat → Option Moniker) (fuel : Nat) (m : Moniker)
    (alts : List Moniker) (h : followAttach attach fuel m = some alts)
    (hlen : alts.length ≤ 1) :
    ∃ r, getMostUniqueMonikerF attach fuel m = some r
      ∧ getMostUniqueMonikerF attach fuel r = some r := by
  cases fuel with
  | zero => simp [followAttach] at h
  | succ k =>
    cases alts with
    | nil =>
      have hnone : attach m.id = none := followAttach_nil_inv h
      refine ⟨m, ?_, ?_⟩
      · simp [getMostUniqueMonikerF, followAttach_succ_none hnone]
      · simp [getMostUniqueMonikerF, followAttach_succ_none hnone]
    | cons a rest =>
      cases rest with
      | cons b t => simp at hlen
      | nil =>
        obtain ⟨hma, hk⟩ := followAttach_cons_inv h
        have hka : attach a.id = none := by
          cases k with
          | zero => simp [followAttach] at hk
          | succ k2 => exact followAttach_nil_inv hk
        refine ⟨a, ?_, ?_⟩
        · simp [getMostUniqueMonikerF, h, reduceMostUnique]
        · simp [getMostUniqueMonikerF, followAttach_succ_none hka]

/-- Witness for C2 (amended) on a concrete one-element chain. -/
theorem C2_idempotent_amended_witness :
    ∃ r, getMostUniqueMonikerF cxAttach 5 cxM1 = some r
      ∧ getMostUniqueMonikerF cxAttach 5 r = some r :=
  C2_idempotent_amended cxAttach 5 cxM1 [cxM2] (by decide) (by decide)

/-! ### Claim C5 -/

/-- A self-attached moniker: the attach index maps `cxLoop`'s id back to
`cxLoop` itself. -/
def cxLoop : Moniker := ⟨30, "tsc", "loop", "local"⟩

def cxAttachLoop : Nat → Option Moniker := fun i => if i = 30 then some cxLoop else none

/-- C5: the attach-chain loop of `getAlternateMonikers` has no bound and no
visited set — on a cyclic attach index it never terminates.  For the
self-attached moniker `cxLoop` the loop has not finished after any number of
iterations, so `getAlternateMonikers` (and hence `getMostUniqueMoniker`)
diverges instead of surfacing a structural error. -/
theorem C5_followAttach_nonterminating :
    ∀ fuel, followAttach cxAttachLoop fuel cxLoop = none
      ∧ getMostUniqueMonikerF cxAttachLoop fuel cxLoop = none := by
  intro fuel
  induction fuel with
  | zero => exact ⟨rfl, rfl⟩
  | succ n ih =>
    have h30 : cxAttachLoop cxLoop.id = some cxLoop := by decide
    constructor
    · simp [followAttach, h30, ih.1]
    · simp [getMostUniqueMonikerF, followAttach, h30, ih.1]

/-! ## Range vertices, documents and the enhanced store

Embedding of the store state read by `findFullRangesFromPosition`,
`getDocumentFromRange` and `getLinkFromRange`
(`src/lsif/jsonStoreEnhanced.ts` lines 70-130, identical in
`src/unnamed/part_002` lines 127-187 and `part_003`/`part_004`). -/

/-- LSIF range-tag types (`RangeTagTypes` from lsif-protocol). -/
inductive RangeTagType where
  | definition
  | declaration
  | reference
  | unknownTag
deriving DecidableEq, Repr

/-- A range tag: type, text, and the enclosing full range. -/
structure RangeTag where
  type : RangeTagType
  text : String
  fullRange : LspRange
deriving DecidableEq, Repr

/-- An LSIF range vertex: id, own start/end positions, optional tag. -/
structure RangeV where
  id : Nat
  start : Position
  end_ : Position
  tag : Option RangeTag
deriving DecidableEq, Repr

/-- An LSIF document vertex: id and uri. -/
structure DocumentV where
  id : Nat
  uri : String
deriving DecidableEq, Repr

/-- A vertex as stored in the adjacency maps: the code only distinguishes
range vertices, document vertices and everything else (by `label`). -/
inductive Vertex where
  | range (r : RangeV)
  | doc (d : DocumentV)
  | other (vid : Nat)
deriving DecidableEq, Repr

/-- The slice of the `JsonStore` state read by the embedded methods:
`indices.documents` (uri to its document group), `out.contains`,
`in.contains`, and the enhanced `in.attach` map. -/
structure Store where
  documentsIndex : String → Option (List DocumentV)
  containsOut : Nat → Option (List Vertex)
  containsIn : Nat → Option Vertex
  attach : Nat → Option Moniker

/-- Lexicographic position order (line, then character), as a Bool. -/
def posLeB (p q : Position) : Bool :=
  if p.line < q.line then true
  else if p.line = q.line then decide (p.character ≤ q.character)
  else false

/-- Modelled from the spec: `JsonStore.containsPosition` lives in the vendored
`lsif-server-modules` base class, which is not under `src/`; the spec (§4.2)
reads "ranges whose `fullRange` contains `position`", embedded as inclusive
containment between the range's endpoints. -/
def containsPosition (r : LspRange) (pos : Position) : Bool :=
  posLeB r.start pos && posLeB pos r.end_

/-- Modelled from the spec: `JsonStore.containsRange` lives in the vendored
`lsif-server-modules` base class, which is not under `src/`; the spec (§4.2)
reads "a candidate replaces the current best only if the current best's range
strictly contains the candidate's range", embedded as containment by a
distinct range. -/
def containsRange (r o : LspRange) : Bool :=
  posLeB r.start o.start && posLeB o.end_ r.end_ && decide (¬ r = o)

/-- Whether a range qualifies as a candidate in `findFullRangesFromPosition`:
it must carry a tag of type definition or declaration, the tag text must be
non-empty (the empty text marks the whole-file range), and the tag's
`fullRange` must contain the position. -/
def isQualifiedCandidate (pos : Position) (r : RangeV) : Bool :=
  match r.tag with
  | none => false
  | some tag =>
    (tag.type == RangeTagType.definition || tag.type == RangeTagType.declaration)
      && tag.text != "" && containsPosition tag.fullRange pos

/-- One iteration of the inner `for (const item of contains)` loop of
`findFullRangesFromPosition` (jsonStoreEnhanced.ts lines 85-109): skip
non-range vertices, untagged or non-definition/declaration tags, empty tag
text, and ranges whose `fullRange` misses the position; otherwise adopt the
item when there is no candidate yet or when the current candidate's own range
contains the item's `fullRange`. -/
def candStep (pos : Position) (cand : Option RangeV) (item : Vertex) : Option RangeV :=
  match item with
  | Vertex.range r =>
    match r.tag with
    | none => cand
    | some tag =>
      if ¬ (tag.type = RangeTagType.definition ∨ tag.type = RangeTagType.declaration) then cand
      else if tag.text = "" then cand
      else if containsPosition tag.fullRange pos then
        match cand with
        | none => some r
        | some c => if containsRange ⟨c.start, c.end_⟩ tag.fullRange then some r else cand
      else cand
  | _ => cand

/-- The inner loop over one document's `contains` list. -/
def pickCandidate (pos : Position) (items : List Vertex) : Option RangeV :=
  items.foldl (candStep pos) none

/-- The `for (const document of value.documents)` loop, with the early
`return undefined` when a document has no (or an empty) `contains` list;
`acc` is the `result` array built so far. -/
def goDocs (store : Store) (pos : Position) : List DocumentV → List RangeV → Option (List RangeV)
  | [], acc => some acc
  | d :: ds, acc =>
    match store.containsOut d.id with
    | none => none
    | some contains =>
      if contains.length = 0 then none
      else
        match pickCandidate pos contains with
        | some c => goDocs store pos ds (acc ++ [c])
        | none => goDocs store pos ds acc

/-- `findFullRangesFromPosition` (jsonStoreEnhanced.ts lines 70-117). -/
def findFullRangesFromPosition (store : Store) (file : String) (pos : Position) :
    Option (List RangeV) :=
  match store.documentsIndex file with
  | none => none
  | some docs =>
    match goDocs store pos docs [] with
    | none => none
    | some result => if result.length > 0 then some result else none

/-- `getDocumentFromRange` (jsonStoreEnhanced.ts lines 121-124): the
`in.contains` entry of the range, if it is a document vertex. -/
def getDocumentFromRange (store : Store) (r : RangeV) : Option DocumentV :=
  match store.containsIn r.id with
  | some (Vertex.doc d) => some d
  | _ => none

/-- Whether a vertex in a `contains` list qualifies as a candidate. -/
def vertexQualifies (pos : Position) (v : Vertex) : Bool :=
  match v with
  | Vertex.range r => isQualifiedCandidate pos r
  | _ => false

/-! ### Lemmas about the candidate selection loop -/

theorem candStep_eq_of_tag (pos : Position) (cand : Option RangeV) (r : RangeV) (tag : RangeTag)
    (htag : r.tag = some tag) :
    candStep pos cand (Vertex.range r) =
      if isQualifiedCandidate pos r then
        match cand with
        | none => some r
        | some c => if containsRange ⟨c.start, c.end_⟩ tag.fullRange then some r else some c
      else cand := by
  cases cand <;>
    by_cases hd : tag.type = RangeTagType.definition <;>
    by_cases hc : tag.type = RangeTagType.declaration <;>
    by_cases h2 : tag.text = "" <;>
    by_cases h3 : containsPosition tag.fullRange pos <;>
    simp [candStep, isQualifiedCandidate, htag, hd, hc, h2, h3]

theorem candStep_unqualified (pos : Position) (cand : Option RangeV) (v : Vertex)
    (h : vertexQualifies pos v = false) : candStep pos cand v = cand := by
  cases v with
  | range r =>
    cases htag : r.tag with
    | none => simp [candStep, htag]
    | some tag =>
      rw [candStep_eq_of_tag pos cand r tag htag]
      simp only [vertexQualifies] at h
      rw [h]
      simp
  | doc d => rfl
  | other vid => rfl

theorem candStep_sound (pos : Position) (cand : Option RangeV) (v : Vertex) (c : RangeV)
    (h : candStep pos cand v = some c) :
    cand = some c ∨ (v = Vertex.range c ∧ isQualifiedCandidate pos c = true) := by
  cases v with
  | range r =>
    cases htag : r.tag with
    | none => simp [candStep, htag] at h; exact Or.inl h
    | some tag =>
      rw [candStep_eq_of_tag pos cand r tag htag] at h
      by_cases hq : isQualifiedCandidate pos r = true
      · rw [if_pos hq] at h
        cases cand with
        | none =>
          have : r = c := by simpa using h
          subst this
          exact Or.inr ⟨rfl, hq⟩
        | some c0 =>
          by_cases hc : containsRange ⟨c0.start, c0.end_⟩ tag.fullRange = true
          · have hrc : r = c := by simpa [hc] using h
            subst hrc
            exact Or.inr ⟨rfl, hq⟩
          · have hcc : c0 = c := by simpa [hc] using h
            exact Or.inl (by rw [hcc])
      · rw [if_neg hq] at h
        exact Or.inl h
  | doc d => exact Or.inl h
  | other vid => exact Or.inl h

theorem foldl_candStep_sound (pos : Position) :
    ∀ (items : List Vertex) (acc : Option RangeV) (c : RangeV),
      items.foldl (candStep pos) acc = some c →
      acc = some c ∨ (Vertex.range c ∈ items ∧ isQualifiedCandidate pos c = true) := by
  intro items
  induction items with
  | nil =>
    intro acc c h
    exact Or.inl h
  | cons v rest ih =>
    intro acc c h
    rw [List.foldl_cons] at h
    rcases ih (candStep pos acc v) c h with h1 | ⟨hmem, hq⟩
    · rcases candStep_sound pos acc v c h1 with h2 | ⟨rfl, hq⟩
      · exact Or.inl h2
      · exact Or.inr ⟨List.mem_cons_self _ _, hq⟩
    · exact Or.inr ⟨List.mem_cons_of_mem _ hmem, hq⟩

theorem pickCandidate_sound (pos : Position) (items : List Vertex) (c : RangeV)
    (h : pickCandidate pos items = some c) :
    Vertex.range c ∈ items ∧ isQualifiedCandidate pos c = true := by
  rcases foldl_candStep_sound pos items none c h with h1 | h2
  · simp at h1
  · exact h2

theorem pickCandidate_none_of_unqualified (pos : Position) (items : List Vertex)
    (h : ∀ v ∈ items, vertexQualifies pos v = false) : pickCandidate pos items = none := by
  have : ∀ acc, items.foldl (candStep pos) acc = acc := by
    induction items with
    | nil => intro acc; rfl
    | cons v rest ih =>
      intro acc
      rw [List.foldl_cons, candStep_unqualified pos acc v (h v (List.mem_cons_self _ _))]
      exact ih (fun v hv => h v (List.mem_cons_of_mem _ hv)) acc
  exact this none

/-! ### Lemmas about the document loop -/

theorem goDocs_cons_none (store : Store) (pos : Position) (d : DocumentV) (ds : List DocumentV)
    (acc : List RangeV) (h : store.containsOut d.id = none) :
    goDocs store pos (d :: ds) acc = none := by
  simp [goDocs, h]

theorem goDocs_cons_some (store : Store) (pos : Position) (d : DocumentV) (ds : List DocumentV)
    (acc : List RangeV) (cs : List Vertex) (h : store.containsOut d.id = some cs) :
    goDocs store pos (d :: ds) acc =
      if cs.length = 0 then none
      else
        match pickCandidate pos cs with
        | some c => goDocs store pos ds (acc ++ [c])
        | none => goDocs store pos ds acc := by
  simp [goDocs, h]

theorem find_eq_of_docs (store : Store) (file : String) (pos : Position)
    (docs : List DocumentV) (h : store.documentsIndex file = some docs) :
    findFullRangesFromPosition store file pos =
      match goDocs store pos docs [] with
      | none => none
      | some result => if result.length > 0 then some result else none := by
  simp [findFullRangesFromPosition, h]

theorem goDocs_cons_nil (store : Store) (pos : Position) (d : DocumentV) (ds : List DocumentV)
    (acc : List RangeV) (h : store.containsOut d.id = some []) :
    goDocs store pos (d :: ds) acc = none := by
  simp [goDocs, h]

theorem goDocs_cons_pick_some (store : Store) (pos : Position) (d : DocumentV)
    (ds : List DocumentV) (acc : List RangeV) (cs : List Vertex) (c : RangeV)
    (h : store.containsOut d.id = some cs) (hlen : ¬ cs.length = 0)
    (hpick : pickCandidate pos cs = some c) :
    goDocs store pos (d :: ds) acc = goDocs store pos ds (acc ++ [c]) := by
  simp [goDocs, h, hlen, hpick]

theorem goDocs_cons_pick_none (store : Store) (pos : Position) (d : DocumentV)
    (ds : List DocumentV) (acc : List RangeV) (cs : List Vertex)
    (h : store.containsOut d.id = some cs) (hlen : ¬ cs.length = 0)
    (hpick : pickCandidate pos cs = none) :
    goDocs store pos (d :: ds) acc = goDocs store pos ds acc := by
  simp [goDocs, h, hlen, hpick]

theorem goDocs_sound (store : Store) (pos : Position) :
    ∀ (docs : List DocumentV) (acc : List RangeV) (rs : List RangeV),
      goDocs store pos docs acc = some rs →
      ∀ r ∈ rs, r ∈ acc ∨ ∃ d ∈ docs, ∃ cs, store.containsOut d.id = some cs
        ∧ Vertex.range r ∈ cs ∧ isQualifiedCandidate pos r = true := by
  intro docs
  induction docs with
  | nil =>
    intro acc rs h r hr
    simp only [goDocs, Option.some.injEq] at h
    subst h
    exact Or.inl hr
  | cons d ds ih =>
    intro acc rs h r hr
    cases hco : store.containsOut d.id with
    | none => rw [goDocs_cons_none store pos d ds acc hco] at h; exact absurd h (by simp)
    | some cs =>
      by_cases hlen : cs.length = 0
      · have hnil : cs = [] := List.length_eq_zero.mp hlen
        subst hnil
        rw [goDocs_cons_nil store pos d ds acc hco] at h
        exact absurd h (by simp)
      · cases hpick : pickCandidate pos cs with
        | some c =>
          rw [goDocs_cons_pick_some store pos d ds acc cs c hco hlen hpick] at h
          rcases ih (acc ++ [c]) rs h r hr with hacc | ⟨d2, hd2, cs2, hcs2⟩
          · rcases List.mem_append.mp hacc with hacc | hsing
            · exact Or.inl hacc
            · have hrc : r = c := by simpa using hsing
              subst hrc
              obtain ⟨hmem, hq⟩ := pickCandidate_sound pos cs r hpick
              exact Or.inr ⟨d, List.mem_cons_self _ _, cs, hco, hmem, hq⟩
          · exact Or.inr ⟨d2, List.mem_cons_of_mem _ hd2, cs2, hcs2⟩
        | none =>
          rw [goDocs_cons_pick_none store pos d ds acc cs hco hlen hpick] at h
          rcases ih acc rs h r hr with hacc | ⟨d2, hd2, cs2, hcs2⟩
          · exact Or.inl hacc
          · exact Or.inr ⟨d2, List.mem_cons_of_mem _ hd2, cs2, hcs2⟩

theorem goDocs_unqualified (store : Store) (pos : Position) :
    ∀ (docs : List DocumentV),
      (∀ d ∈ docs, ∀ cs, store.containsOut d.id = some cs →
        ∀ v ∈ cs, vertexQualifies pos v = false) →
      ∀ acc, goDocs store pos docs acc = none ∨ goDocs store pos docs acc = some acc := by
  intro docs
  induction docs with
  | nil => intro _ acc; exact Or.inr rfl
  | cons d ds ih =>
    intro h acc
    cases hco : store.containsOut d.id with
    | none => exact Or.inl (goDocs_cons_none store pos d ds acc hco)
    | some cs =>
      by_cases hlen : cs.length = 0
      · have hnil : cs = [] := List.length_eq_zero.mp hlen
        subst hnil
        exact Or.inl (goDocs_cons_nil store pos d ds acc hco)
      · have hpick : pickCandidate pos cs = none :=
          pickCandidate_none_of_unqualified pos cs
            (h d (List.mem_cons_self _ _) cs hco)
        rw [goDocs_cons_pick_none store pos d ds acc cs hco hlen hpick]
        exact ih (fun d2 hd2 => h d2 (List.mem_cons_of_mem _ hd2)) acc

theorem goDocs_badDoc (store : Store) (pos : Position) :
    ∀ (docs : List DocumentV) (d : DocumentV), d ∈ docs →
      (store.containsOut d.id = none ∨ store.containsOut d.id = some []) →
      ∀ acc, goDocs store pos docs acc = none := by
  intro docs
  induction docs with
  | nil => intro d hd; simp at hd
  | cons d0 ds ih =>
    intro d hd hbad acc
    rcases List.mem_cons.mp hd with rfl | hds
    · rcases hbad with hnone | hnil
      · exact goDocs_cons_none store pos d ds acc hnone
      · exact goDocs_cons_nil store pos d ds acc hnil
    · cases hco : store.containsOut d0.id with
      | none => exact goDocs_cons_none store pos d0 ds acc hco
      | some cs =>
        by_cases hlen : cs.length = 0
        · have hnil : cs = [] := List.length_eq_zero.mp hlen
          subst hnil
          exact goDocs_cons_nil store pos d0 ds acc hco
        · cases hpick : pickCandidate pos cs with
          | some c =>
            rw [goDocs_cons_pick_some store pos d0 ds acc cs c hco hlen hpick]
            exact ih d hds hbad (acc ++ [c])
          | none =>
            rw [goDocs_cons_pick_none store pos d0 ds acc cs hco hlen hpick]
            exact ih d hds hbad acc

/-! ### Claim C3 -/

/-- C3: characterization of `findFullRangesFromPosition`.  (1) An unregistered
uri yields `undefined`.  (2) Soundness: every returned range was reached
through a `contains` edge of one of the uri's document vertices, carries a
definition or declaration tag with non-empty text, and its `fullRange`
contains the position.  (3) Appending a qualifying candidate to the scanned
list replaces the current best exactly when the current best's own range
strictly contains the new candidate's `fullRange` (and a first qualifying
candidate is adopted unconditionally).  (3b) Non-qualifying vertices — wrong
label, missing tag, wrong tag type, empty tag text, or position outside the
`fullRange` — never change the selection.  (4) When no document's `contains`
list offers a qualifying vertex, the result is `undefined`. -/
theorem C3_findFullRanges_characterization (store : Store) (file : String) (pos : Position) :
    (store.documentsIndex file = none → findFullRangesFromPosition store file pos = none)
    ∧ (∀ docs rs, store.documentsIndex file = some docs →
        findFullRangesFromPosition store file pos = some rs →
        ∀ r ∈ rs, ∃ d ∈ docs, ∃ cs, store.containsOut d.id = some cs
          ∧ Vertex.range r ∈ cs ∧ isQualifiedCandidate pos r = true)
    ∧ (∀ items r tag, r.tag = some tag →
        pickCandidate pos (items ++ [Vertex.range r]) =
          if isQualifiedCandidate pos r then
            match pickCandidate pos items with
            | none => some r
            | some c => if containsRange ⟨c.start, c.end_⟩ tag.fullRange then some r else some c
          else pickCandidate pos items)
    ∧ (∀ items v, vertexQualifies pos v = false →
        pickCandidate pos (items ++ [v]) = pickCandidate pos items)
    ∧ (∀ docs, store.documentsIndex file = some docs →
        (∀ d ∈ docs, ∀ cs, store.containsOut d.id = some cs →
          ∀ v ∈ cs, vertexQualifies pos v = false) →
        findFullRangesFromPosition store file pos = none) := by
  refine ⟨?_, ?_, ?_, ?_, ?_⟩
  · intro h
    simp [findFullRangesFromPosition, h]
  · intro docs rs hdocs hfind r hr
    rw [find_eq_of_docs store file pos docs hdocs] at hfind
    cases hgo : goDocs store pos docs [] with
    | none => rw [hgo] at hfind; exact absurd hfind (by simp)
    | some result =>
      rw [hgo] at hfind
      by_cases hlen : result.length > 0
      · have hres : result = rs := by simpa [hlen] using hfind
        subst hres
        rcases goDocs_sound store pos docs [] result hgo r hr with habs | hok
        · simp at habs
        · exact hok
      · simp [hlen] at hfind
  · intro items r tag htag
    unfold pickCandidate
    rw [List.foldl_append]
    simp only [List.foldl_cons, List.foldl_nil]
    exact candStep_eq_of_tag pos _ r tag htag
  · intro items v hv
    unfold pickCandidate
    rw [List.foldl_append]
    simp only [List.foldl_cons, List.foldl_nil]
    exact candStep_unqualified pos _ v hv
  · intro docs hdocs hall
    rw [find_eq_of_docs store file pos docs hdocs]
    rcases goDocs_unqualified store pos docs hall [] with hnone | hnil
    · rw [hnone]
    · rw [hnil]; simp

/-- Witness store for C3: a uri with no registered document group. -/
def exStoreEmpty : Store :=
  { documentsIndex := fun _ => none
    containsOut := fun _ => none
    containsIn := fun _ => none
    attach := fun _ => none }

/-- Witness for C3: on a store with no document registered for the uri, the
lookup returns `undefined`. -/
theorem C3_findFullRanges_witness :
    findFullRangesFromPosition exStoreEmpty "file:///a.ts" ⟨0, 0⟩ = none :=
  (C3_findFullRanges_characterization exStoreEmpty "file:///a.ts" ⟨0, 0⟩).1 rfl

/-! ### Claim C9 -/

/-- C9: if any document vertex registered for the uri has a missing or empty
`contains` list, the whole lookup returns `undefined` (the early
`return undefined` aborts the accumulation, whatever the other documents
contain); and the function never returns an empty array — a `some` result is
always non-empty. -/
theorem C9_findFullRanges_emptyContains (store : Store) (file : String) (pos : Position) :
    (∀ docs d, store.documentsIndex file = some docs → d ∈ docs →
      (store.containsOut d.id = none ∨ store.containsOut d.id = some []) →
      findFullRangesFromPosition store file pos = none)
    ∧ (∀ rs, findFullRangesFromPosition store file pos = some rs → rs ≠ []) := by
  constructor
  · intro docs d hdocs hd hbad
    rw [find_eq_of_docs store file pos docs hdocs,
      goDocs_badDoc store pos docs d hd hbad []]
  · intro rs hfind
    cases hdocs : store.documentsIndex file with
    | none =>
      have : findFullRangesFromPosition store file pos = none := by
        simp [findFullRangesFromPosition, hdocs]
      rw [this] at hfind
      exact absurd hfind (by simp)
    | some docs =>
      rw [find_eq_of_docs store file pos docs hdocs] at hfind
      cases hgo : goDocs store pos docs [] with
      | none => rw [hgo] at hfind; exact absurd hfind (by simp)
      | some result =>
        rw [hgo] at hfind
        by_cases hlen : result.length > 0
        · have hres : result = rs := by simpa [hlen] using hfind
          subst hres
          exact List.ne_nil_of_length_pos hlen
        · simp [hlen] at hfind

/-- Witness store for C9: one document registered for the uri, with no
`contains` entry, and a second document that does contain a qualifying
definition range covering the position. -/
def exDocA : DocumentV := ⟨1, "file:///a.ts"⟩

def exDocB : DocumentV := ⟨2, "file:///a.ts"⟩

def exDefRange : RangeV :=
  ⟨3, ⟨0, 0⟩, ⟨0, 3⟩,
    some ⟨RangeTagType.definition, "foo", ⟨⟨0, 0⟩, ⟨5, 1⟩⟩⟩⟩

def exStoreC9 : Store :=
  { documentsIndex := fun u => if u = "file:///a.ts" then some [exDocA, exDocB] else none
    containsOut := fun i => if i = 2 then some [Vertex.range exDefRange] else none
    containsIn := fun _ => none
    attach := fun _ => none }

/-- Witness for C9: the first document's missing `contains` list forces an
`undefined` result even though the second document holds a qualifying range. -/
theorem C9_findFullRanges_witness :
    findFullRangesFromPosition exStoreC9 "file:///a.ts" ⟨0, 1⟩ = none :=
  (C9_findFullRanges_emptyContains exStoreC9 "file:///a.ts" ⟨0, 1⟩).1
    [exDocA, exDocB] exDocA (by decide) (by decide) (Or.inl (by decide))

/-! ## Location rendering

Embedding of `locationToString` / `locationToLink` / `getLinkFromRange`
(`src/lsif/jsonStoreEnhanced.ts` lines 126-130 and 181-191; identical in
`src/unnamed/part_002` lines 183-187 and 349-364).  The JavaScript
`s.split(" - ")[0]` is embedded as `splitFirstSeg`: the scan up to the first
occurrence of the separator (the first element of the split). -/

/-- An LSP location: uri plus range. -/
structure Location where
  uri : String
  range : LspRange
deriving DecidableEq, Repr

/-- `locationToString` (jsonStoreEnhanced.ts lines 188-191): the template
literal renders the zero-based positions one-based. -/
def locationToString (r : Location) : String :=
  r.uri ++ ":" ++ toString (r.range.start.line + 1) ++ ":"
    ++ toString (r.range.start.character + 1) ++ " - "
    ++ toString (r.range.end_.line + 1) ++ ":" ++ toString (r.range.end_.character + 1)

/-- The characters of the `" - "` separator used by `split`. -/
def sepChars : List Char := [' ', '-', ' ']

/-- Whether `p` is an initial run of `l` (element-wise). -/
def startsWithSeq {α : Type} [BEq α] : List α → List α → Bool
  | [], _ => true
  | _ :: _, [] => false
  | p :: ps, c :: cs => p == c && startsWithSeq ps cs

/-- The first element of JavaScript's `s.split(sep)`: the characters scanned
before the first occurrence of `sep` (all of `s` when `sep` never occurs). -/
def splitFirstSeg (sep : List Char) : List Char → List Char
  | [] => []
  | c :: rest => if startsWithSeq sep (c :: rest) then [] else c :: splitFirstSeg sep rest

/-- `locationToLink` (jsonStoreEnhanced.ts line 181):
`locationToString(r).split(" - ")[0]`. -/
def locationToLink (r : Location) : String :=
  String.mk (splitFirstSeg sepChars (locationToString r).data)

/-- `getLinkFromRange` (jsonStoreEnhanced.ts lines 126-130):
`locationToString({uri: getDocumentFromRange(range)?.uri ?? "", range}).split(" - ")[0]`. -/
def getLinkFromRange (store : Store) (rg : RangeV) : String :=
  String.mk (splitFirstSeg sepChars
    (locationToString
      { uri := match getDocumentFromRange store rg with
               | some d => d.uri
               | none => ""
        range := { start := rg.start, end_ := rg.end_ } }).data)

/-! ### Lemmas about `splitFirstSeg` -/

theorem startsWithSeq_iff {α : Type} [BEq α] [LawfulBEq α] (p : List α) :
    ∀ l, startsWithSeq p l = true ↔ ∃ t, p ++ t = l := by
  induction p with
  | nil =>
    intro l
    simp [startsWithSeq]
  | cons a ps ih =>
    intro l
    cases l with
    | nil =>
      simp [startsWithSeq]
    | cons c cs =>
      simp only [startsWithSeq, Bool.and_eq_true, beq_iff_eq]
      constructor
      · rintro ⟨rfl, hs⟩
        obtain ⟨t, ht⟩ := (ih cs).mp hs
        exact ⟨t, by simp [ht]⟩
      · rintro ⟨t, ht⟩
        have h1 : a = c := by
          have := congrArg (fun l => l.head?) ht
          simpa using this
        have h2 : ps ++ t = cs := by
          have := congrArg (fun l => l.tail) ht
          simpa using this
        exact ⟨h1, (ih cs).mpr ⟨t, h2⟩⟩

/-- `splitFirstSeg` is the text before the first occurrence of the separator:
when some occurrence exists, an occurrence starts right after the result, and
the result is an initial run of the text before any occurrence. -/
theorem splitFirstSeg_spec (sep : List Char) :
    ∀ s : List Char, (∃ q t, q ++ sep ++ t = s) →
      (∃ t, splitFirstSeg sep s ++ sep ++ t = s)
      ∧ (∀ q t, q ++ sep ++ t = s → ∃ t2, splitFirstSeg sep s ++ t2 = q) := by
  intro s
  induction s with
  | nil =>
    rintro ⟨q, t, hqt⟩
    have hq : q = [] := by
      cases q with
      | nil => rfl
      | cons a as => simp at hqt
    subst hq
    have hsep : sep = [] := by
      cases sep with
      | nil => rfl
      | cons a as => simp at hqt
    subst hsep
    constructor
    · exact ⟨[], by simp [splitFirstSeg]⟩
    · intro q2 t2 h2
      refine ⟨[], ?_⟩
      cases q2 with
      | nil => rfl
      | cons a as => simp at h2
  | cons c rest ih =>
    rintro ⟨q, t, hqt⟩
    by_cases hp : startsWithSeq sep (c :: rest) = true
    · constructor
      · obtain ⟨t2, ht2⟩ := (startsWithSeq_iff sep (c :: rest)).mp hp
        refine ⟨t2, ?_⟩
        simp only [splitFirstSeg, if_pos hp, List.nil_append]
        exact ht2
      · intro q2 t2 h2
        simp only [splitFirstSeg, if_pos hp]
        exact ⟨q2, rfl⟩
    · have hqcons : ∃ q', q = c :: q' := by
        cases q with
        | nil =>
          exfalso
          apply hp
          exact (startsWithSeq_iff sep (c :: rest)).mpr ⟨t, by simpa using hqt⟩
        | cons a as =>
          have h1 : a = c := by
            have := congrArg (fun l => l.head?) hqt
            simpa using this
          exact ⟨as, by rw [h1]⟩
      obtain ⟨q', rfl⟩ := hqcons
      have hrest : q' ++ sep ++ t = rest := by
        have := congrArg (fun l => l.tail) hqt
        simpa using this
      obtain ⟨hex, hmin⟩ := ih ⟨q', t, hrest⟩
      constructor
      · obtain ⟨t2, ht2⟩ := hex
        refine ⟨t2, ?_⟩
        simp only [splitFirstSeg, if_neg hp]
        simpa using ht2
      · intro q2 t2 h2
        cases q2 with
        | nil =>
          exfalso
          apply hp
          exact (startsWithSeq_iff sep (c :: rest)).mpr ⟨t2, by simpa using h2⟩
        | cons a as =>
          have h1 : a = c := by
            have := congrArg (fun l => l.head?) h2
            simpa using this
          have h3 : as ++ sep ++ t2 = rest := by
            have := congrArg (fun l => l.tail) h2
            simpa using this
          obtain ⟨t3, ht3⟩ := hmin as t2 h3
          refine ⟨t3, ?_⟩
          simp only [splitFirstSeg, if_neg hp]
          rw [h1]
          simpa using ht3

theorem string_data_append (s t : String) : (s ++ t).data = s.data ++ t.data := by
  cases s; cases t; rfl

/-- The rendered location always contains the `" - "` separator at the spot
the template literal inserts it. -/
theorem locationToString_occurrence (r : Location) :
    (r.uri ++ ":" ++ toString (r.range.start.line + 1) ++ ":"
        ++ toString (r.range.start.character + 1)).data ++ sepChars
      ++ (toString (r.range.end_.line + 1) ++ ":"
        ++ toString (r.range.end_.character + 1)).data
      = (locationToString r).data := by
  unfold locationToString
  simp only [string_data_append, List.append_assoc]
  rfl

/-! ### Claim C10 -/

/-- C10: `locationToString` renders the stored zero-based positions one-based
in the format `<uri>:<l+1>:<c+1> - <l+1>:<c+1>`; `locationToLink` is the
prefix of that string before the first `" - "` separator (an occurrence of
the separator starts right where the link ends, and the link is an initial
run of the text before any occurrence of the separator); and
`getLinkFromRange` is `locationToLink` of the location assembled from the
range's document uri (empty when the range has no containing document). -/
theorem C10_locationToString_format (r : Location) :
    locationToString r
      = r.uri ++ ":" ++ toString (r.range.start.line + 1) ++ ":"
        ++ toString (r.range.start.character + 1) ++ " - "
        ++ toString (r.range.end_.line + 1) ++ ":" ++ toString (r.range.end_.character + 1)
    ∧ (∃ t, (locationToLink r).data ++ sepChars ++ t = (locationToString r).data)
    ∧ (∀ q t, q ++ sepChars ++ t = (locationToString r).data →
        ∃ t2, (locationToLink r).data ++ t2 = q)
    ∧ (∀ (store : Store) (rg : RangeV),
        getLinkFromRange store rg = locationToLink
          { uri := match getDocumentFromRange store rg with
                   | some d => d.uri
                   | none => ""
            range := { start := rg.start, end_ := rg.end_ } }) := by
  have hocc : ∃ q t, q ++ sepChars ++ t = (locationToString r).data :=
    ⟨_, _, locationToString_occurrence r⟩
  obtain ⟨hex, hmin⟩ := splitFirstSeg_spec sepChars (locationToString r).data hocc
  refine ⟨rfl, ?_, ?_, ?_⟩
  · obtain ⟨t, ht⟩ := hex
    exact ⟨t, ht⟩
  · intro q t hqt
    exact hmin q t hqt
  · intro store rg
    rfl

/-- Witness location for C10. -/
def exLoc : Location := ⟨"file:///a.ts", ⟨⟨0, 0⟩, ⟨1, 2⟩⟩⟩

/-- Witness for C10: on the concrete location, the minimality clause applies
to the separator occurrence the format itself provides, identifying the link
as an initial run of the text before it. -/
theorem C10_locationToString_witness :
    ∃ t2, (locationToLink exLoc).data ++ t2 = "file:///a.ts:1:1".data :=
  (C10_locationToString_format exLoc).2.2.1 "file:///a.ts:1:1".data "2:3".data (by decide)

/-! ## The extraction script: tsc-moniker resolution

Embedding of the moniker-selection step of `processDefinitionRange`
(`src/lsif/extract-react-component-diagram.mts` lines 568-595): look up the
result set's monikers through `monikerIndexOut`, filter to vertices whose
label is `moniker` and whose scheme is `"tsc"`, and require exactly one. -/

/-- An entry of the script's `elements` array as the moniker filter sees it:
either a moniker vertex or some other graph element. -/
inductive ExElem where
  | mon (m : Moniker)
  | vert (vid : Nat) (label : String)
deriving DecidableEq, Repr

/-- The filter
`(moniker as Vertex).label === VertexLabels.moniker && (moniker as Moniker)?.scheme === "tsc"`
applied to the looked-up elements (extract-react-component-diagram.mts
lines 578-584). -/
def tscMonikersOf (elems : Nat → Option ExElem) (ids : List Nat) : List Moniker :=
  (ids.map elems).filterMap (fun v =>
    match v with
    | some (ExElem.mon m) => if m.scheme = "tsc" then some m else none
    | _ => none)

/-- The selection with its guard (extract-react-component-diagram.mts lines
585-587 and 595): `if (tscMonikers.length !== 1) throw ...` then
`tscMonikers[0]`. -/
def selectTscMoniker (elems : Nat → Option ExElem) (midx : Nat → List Nat) (rsid : Nat) :
    Except String Moniker :=
  match tscMonikersOf elems (midx rsid) with
  | [m] => Except.ok m
  | l => Except.error ("Expected a single tsc moniker but found " ++ toString l.length)

/-! ### Claim C4 -/

/-- C4: canonical moniker resolution for a definition range's result set
succeeds exactly when the result set carries exactly one moniker with the
governing analyzer's scheme `"tsc"`: with exactly one such moniker the
selection returns it; with zero or with more than one it throws a resolution
error instead of silently picking one. -/
theorem C4_tscMoniker_resolution (elems : Nat → Option ExElem) (midx : Nat → List Nat)
    (rsid : Nat) :
    (∀ m, tscMonikersOf elems (midx rsid) = [m] → selectTscMoniker elems midx rsid = Except.ok m)
    ∧ ((tscMonikersOf elems (midx rsid)).length ≠ 1 →
        ∃ msg, selectTscMoniker elems midx rsid = Except.error msg)
    ∧ (∀ m, selectTscMoniker elems midx rsid = Except.ok m →
        tscMonikersOf elems (midx rsid) = [m]) := by
  refine ⟨?_, ?_, ?_⟩
  · intro m h
    simp [selectTscMoniker, h]
  · intro hne
    unfold selectTscMoniker
    cases hl : tscMonikersOf elems (midx rsid) with
    | nil => exact ⟨_, rfl⟩
    | cons m rest =>
      cases rest with
      | nil => exact absurd (by simp [hl]) hne
      | cons m2 rest2 => exact ⟨_, rfl⟩
  · intro m h
    unfold selectTscMoniker at h
    cases hl : tscMonikersOf elems (midx rsid) with
    | nil => rw [hl] at h; exact absurd h (by simp)
    | cons m1 rest =>
      cases rest with
      | nil =>
        rw [hl] at h
        have : m1 = m := by simpa using h
        rw [this]
      | cons m2 rest2 =>
        rw [hl] at h
        exact absurd h (by simp)

/-- Witness data for C4: a result set with one tsc moniker and one moniker of
another scheme. -/
def exTscMoniker : Moniker := ⟨100, "tsc", "lib/a:Foo", "workspace"⟩

def exNpmMoniker : Moniker := ⟨101, "npm", "pkg:Foo", "scheme"⟩

def exElems : Nat → Option ExElem := fun i =>
  if i = 100 then some (ExElem.mon exTscMoniker)
  else if i = 101 then some (ExElem.mon exNpmMoniker)
  else none

def exMonikerIndexOut : Nat → List Nat := fun i => if i = 50 then [100, 101] else []

/-- Witness for C4: the result set 50 carries exactly one tsc moniker, and the
selection returns it; an empty result set (id 51) has zero tsc monikers and
the selection fails. -/
theorem C4_tscMoniker_witness :
    selectTscMoniker exElems exMonikerIndexOut 50 = Except.ok exTscMoniker
    ∧ ∃ msg, selectTscMoniker exElems exMonikerIndexOut 51 = Except.error msg :=
  ⟨(C4_tscMoniker_resolution exElems exMonikerIndexOut 50).1 exTscMoniker (by decide),
    (C4_tscMoniker_resolution exElems exMonikerIndexOut 51).2.1 (by decide)⟩

/-! ## The LikeC4 model index and the DSL emitter

Embedding of `modelIndexToDsl` (`src/lsif/extract-react-component-diagram.mts`
lines 161-317).  The `ModelIndex` itself is the external `@likec4/core`
collaborator; it is modelled from the spec (§3 and §6): elements carry
hierarchical dot-separated ids (embedded as segment lists), the parent of an
id is the id with its last segment dropped, every element's parent path is
present in a well-formed model, `rootElements()` are the elements with no
parent and `children(id)` the elements whose parent is `id`.  The external
string helpers `dasherize` (inflection) and `encodeURI` are parameters of the
emitter context. -/

/-- A LikeC4 element as the script builds it (`C4Element`): hierarchical id
(dot-separated path, embedded as its segments), kind, title, description,
optional technology, optional tag list, optional source links. -/
structure Elem where
  id : List String
  kind : String
  title : String
  description : String
  technology : Option String
  tags : Option (List String)
  links : Option (List String)
deriving DecidableEq, Repr

/-- A LikeC4 relation as the script builds it. -/
structure Rel where
  source : List String
  target : List String
  tags : Option (List String)
  rid : String
  title : String
deriving DecidableEq, Repr

/-- Modelled from the spec: the external `ModelIndex` store — an element list
and a relation list with read accessors. -/
structure ModelIndex where
  elements : List Elem
  relations : List Rel
deriving DecidableEq, Repr

/-- Modelled from the spec: `parentFqn` of `@likec4/core` — the dot-path with
its last segment dropped, none for a top-level (or empty) path. -/
def parentF : List String → Option (List String)
  | [] => none
  | [_] => none
  | f => some f.dropLast

/-- Modelled from the spec: `nameFromFqn` of `@likec4/core` — the last
segment of the dot-path. -/
def nameFromFqnM (f : List String) : String := f.getLastD ""

/-- Modelled from the spec: `ModelIndex.rootElements()` — the elements with
no parent path. -/
def rootElementsM (m : ModelIndex) : List Elem :=
  m.elements.filter (fun e => (parentF e.id).isNone)

/-- Modelled from the spec: `ModelIndex.children(id)` — the elements whose
parent path is `id`. -/
def childrenM (m : ModelIndex) (p : List String) : List Elem :=
  m.elements.filter (fun e => parentF e.id == some p)

/-- `Array.prototype.join(sep)`. -/
def joinSep (sep : String) : List String → String
  | [] => ""
  | [x] => x
  | x :: xs => x ++ sep ++ joinSep sep xs

/-- Concatenation of a list of lists. -/
def concatAll {α : Type} (l : List (List α)) : List α := l.foldr (fun a b => a ++ b) []

/-- `[...new Set(l)]`: deduplication keeping first occurrences in insertion
order. -/
def dedupeFirst (l : List String) : List String :=
  l.foldl (fun acc x => if x ∈ acc then acc else acc ++ [x]) []

/-- `" ".repeat(indent * indentSize)` with `indentSize = 2`. -/
def indStr (n : Nat) : String := String.mk (List.replicate (n * 2) ' ')

/-- The rendered dot-path (`Fqn` as the DSL prints it). -/
def fqnStr (f : List String) : String := joinSep "." f

/-- JavaScript truthiness of a nullable string. -/
def optTruthy : Option String → Bool
  | none => false
  | some s => s != ""

/-- The emitter's context: the `--scopes` flag and the external string
helpers `encodeURI` and `dasherize` (inflection), which are external-library
collaborators taken as parameters. -/
structure DslCtx where
  scopes : Bool
  encodeURIFn : String → String
  dasherizeFn : String → String

/-- The tail of an element header line after the `" = "`:
`kind '<title>'` plus the optional description, technology and opening
brace, with JavaScript truthiness for the description/technology tests
(extract-react-component-diagram.mts lines 190-193). -/
def elementHeaderTail (el : Elem) : String :=
  el.kind ++ " '" ++ el.title ++ "'"
    ++ (if el.description != "" || optTruthy el.technology then " '" ++ el.description ++ "'"
        else "")
    ++ (match el.technology with
        | some t => if t != "" then " '" ++ t ++ "'" else ""
        | none => "")
    ++ (if el.tags.isSome then " \x7b" else "")

/-- An element header line: `<name> = <kind> '<title>' ...`. -/
def elementHeaderLine (ind : Nat) (el : Elem) : String :=
  indStr ind ++ nameFromFqnM el.id ++ " = " ++ elementHeaderTail el

/-- The tags line inside an element block: `#tag1, #tag2`. -/
def tagsLine (ind : Nat) (ts : List String) : String :=
  indStr ind ++ joinSep ", " (ts.map (fun t => "#" ++ t))

/-- A `link <encoded uri>` line. -/
def linkLine (ctx : DslCtx) (ind : Nat) (link : String) : String :=
  indStr ind ++ "link " ++ ctx.encodeURIFn link

/-- The recursive `toElementDsl` helper (extract-react-component-diagram.mts
lines 188-223), fuel-indexed to bound the recursion into children; it returns
the emitted lines together with the container elements pushed along the way
(an element is a container when it has children, recorded before its children
are rendered).  The JavaScript recursion terminates because the parent
relation strictly deepens paths; any fuel larger than the deepest path yields
the same result. -/
def toElementDslF (ctx : DslCtx) (m : ModelIndex) : Nat → Nat → Elem → List String × List Elem
  | 0, _, _ => ([], [])
  | fuel + 1, ind, el =>
    let tagLines : List String :=
      match el.tags with
      | some ts => [tagsLine (ind + 1) ts]
      | none => []
    let linkLines := (el.links.getD []).map (linkLine ctx (ind + 1))
    let children := childrenM m el.id
    let conts : List Elem := if children.length > 0 then [el] else []
    let childResults := children.map (fun c => toElementDslF ctx m fuel (ind + 1) c)
    let childLines := childResults.foldl (fun acc p => acc ++ [""] ++ p.1) []
    let childConts := childResults.foldl (fun acc p => acc ++ p.2) []
    let closing : List String := if el.tags.isSome then [indStr (ind + 1) ++ "\x7d", ""] else []
    (elementHeaderLine ind el :: (tagLines ++ linkLines ++ childLines ++ closing),
      conts ++ childConts)

/-- The tail of a relation line after the `" -> "`: target, optional quoted
title (JavaScript truthiness), optional tag block
(extract-react-component-diagram.mts lines 230-237). -/
def relationLineTail (r : Rel) : String :=
  fqnStr r.target
    ++ (if r.title != "" then " '" ++ r.title ++ "'" else "")
    ++ (match r.tags with
        | some ts => " \x7b" ++ joinSep ", " (ts.map (fun t => "#" ++ t)) ++ "\x7d"
        | none => "")

/-- A relation line: `<source> -> <target> ...` at model indentation. -/
def relationLine (r : Rel) : String :=
  indStr 1 ++ fqnStr r.source ++ " -> " ++ relationLineTail r

/-- The `switch (el.kind)` choosing the view-title suffix
(extract-react-component-diagram.mts lines 286-301). -/
def viewTypeOf (kind : String) : String :=
  if kind = "system" ∨ kind = "softwareSystem" then "Container"
  else if kind = "container" then "Component"
  else if kind = "component" then "Code"
  else if kind = "environment" then "Deployment"
  else ""

/-- The argument handed to `dasherize` for a container view's name:
`(parentFqn(el.id) ?? "").replace(/\./g, "-") + el.title`. -/
def viewNameArg (el : Elem) : String :=
  (match parentF el.id with
   | none => ""
   | some p => joinSep "-" p) ++ el.title

/-- The four lines of one container view
(extract-react-component-diagram.mts lines 277-310). -/
def containerViewLines (ctx : DslCtx) (el : Elem) : List String :=
  [indStr 1 ++ "view " ++ ctx.dasherizeFn (viewNameArg el) ++ " of " ++ fqnStr el.id ++ " \x7b",
   indStr 2 ++ "title '" ++ el.title ++ (if viewTypeOf el.kind != "" then " - " else "")
     ++ viewTypeOf el.kind ++ "'",
   indStr 2 ++ "include *",
   indStr 1 ++ "\x7d"]

/-- The `indexFlat` view emitted under `--scopes`
(extract-react-component-diagram.mts lines 256-275). -/
def flatViewLines (containers : List Elem) : List String :=
  [indStr 1 ++ "view indexFlat \x7b",
   indStr 2 ++ "title 'Landscape (flat)'",
   indStr 2 ++ "include "
     ++ joinSep ", " ("*" ::
          ((containers.filter (fun el => (el.tags.getD []).contains "scope")).map
            (fun el => fqnStr el.id ++ ".*"))),
   indStr 2 ++ "exclude element.tag = #scope\t// Comment this line to nest within scopes",
   indStr 1 ++ "\x7d",
   ""]

/-- The specification section's `element <kind>` lines: deduplicated kinds in
first-appearance order (`[...new Set(...)]`). -/
def kindsLines (m : ModelIndex) : List String :=
  (dedupeFirst (m.elements.map (fun el => el.kind))).map (fun k => "  element " ++ k)

/-- The specification section's `tag <tag>` lines: deduplicated element tags
followed by relation tags. -/
def tagsLinesSpec (m : ModelIndex) : List String :=
  (dedupeFirst (concatAll (m.elements.map (fun el => el.tags.getD []))
    ++ concatAll (m.relations.map (fun r => r.tags.getD [])))).map (fun t => "  tag " ++ t)

/-- The per-root traversal results (lines and containers), with fuel larger
than any possible nesting depth. -/
def rootResultsOf (ctx : DslCtx) (m : ModelIndex) : List (List String × List Elem) :=
  (rootElementsM m).map (fun el => toElementDslF ctx m (m.elements.length + 1) 1 el)

/-- The model section's element lines: the roots' traversals concatenated. -/
def rootLinesOf (ctx : DslCtx) (m : ModelIndex) : List String :=
  concatAll ((rootResultsOf ctx m).map (fun p => p.1))

/-- The container elements collected during the traversal. -/
def containersOf (ctx : DslCtx) (m : ModelIndex) : List Elem :=
  concatAll ((rootResultsOf ctx m).map (fun p => p.2))

/-- The fixed opening of the views section with the index view. -/
def viewsHeadLines : List String :=
  ["views \x7b",
   indStr 1 ++ "view index \x7b",
   indStr 2 ++ "title 'Landscape'",
   indStr 2 ++ "include *",
   indStr 1 ++ "\x7d",
   ""]

/-- The emitted DSL as its line list (the script builds exactly this `dsl`
array and joins it with newlines): specification section (deduplicated kinds
and tags), model section (depth-first elements from the roots, then all
relations), and views section (index view, optional flat view, one view per
container element). -/
def modelDslLines (ctx : DslCtx) (m : ModelIndex) : List String :=
  ["specification \x7b"]
    ++ kindsLines m
    ++ tagsLinesSpec m
    ++ ["\x7d", "model \x7b"]
    ++ rootLinesOf ctx m
    ++ m.relations.map relationLine
    ++ ["\x7d", ""]
    ++ viewsHeadLines
    ++ (if ctx.scopes then flatViewLines (containersOf ctx m) else [])
    ++ concatAll ((containersOf ctx m).map (containerViewLines ctx))
    ++ ["\x7d", ""]

/-- `modelIndexToDsl` (extract-react-component-diagram.mts line 316):
the line list joined with newlines. -/
def modelIndexToDsl (ctx : DslCtx) (m : ModelIndex) : String :=
  joinSep "\n" (modelDslLines ctx m)

/-! ### Line classifiers

The spec's round-trip property counts "element" and "non-comment relation"
lines in the emitted text.  A line counts as an element(-header) line when it
contains the ` = ` of an element definition and no `//` comment marker; a
line counts as a relation line when it contains ` -> ` and no `//`. -/

/-- Whether `pat` occurs inside `l` as a contiguous run. -/
def hasRun {α : Type} [BEq α] (pat : List α) : List α → Bool
  | [] => startsWithSeq pat []
  | c :: rest => startsWithSeq pat (c :: rest) || hasRun pat rest

/-- A non-comment line containing an element definition's ` = `. -/
def isElementLine (s : String) : Bool :=
  hasRun " = ".data s.data && !(hasRun "//".data s.data)

/-- A non-comment line containing a relation's ` -> `. -/
def isRelationLine (s : String) : Bool :=
  hasRun " -> ".data s.data && !(hasRun "//".data s.data)

/-! ### Claim C8, counterexample -/

/-- Identity external helpers for the counterexample context. -/
def exDslCtx : DslCtx := ⟨false, fun s => s, fun s => s⟩

/-- A model with one element (whose title contains ` -> `) and no relation. -/
def exModelCx : ModelIndex :=
  ⟨[⟨["a"], "widget", "x -> y", "", none, none, none⟩], []⟩

/-- C8 counterexample: for a model with N = 1 element and M = 0 relations the
emitted text does not contain exactly M non-comment relation lines — the
element's header line `a = widget 'x -> y'` itself contains ` -> ` and no
comment marker, so the count of non-comment relation lines is 1 ≠ 0.  The
claim as stated (for every model index) is therefore false: it needs the
element and relation text fields to stay clear of the DSL's own tokens. -/
theorem C8_dsl_counterexample :
    (modelDslLines exDslCtx exModelCx).countP (fun s => isRelationLine s) = 1
    ∧ exModelCx.relations.length = 0
    ∧ exModelCx.elements.length = 1 := by
  decide

/-! ### Counting infrastructure -/

theorem sum_map_add {α : Type} (f g : α → Nat) :
    ∀ l : List α, (l.map (fun c => f c + g c)).sum = (l.map f).sum + (l.map g).sum := by
  intro l
  induction l with
  | nil => simp
  | cons a t ih => simp [ih]; omega

theorem sum_map_ite_count {α : Type} (q : α → Bool) :
    ∀ cs : List α, (cs.map (fun c => if q c then 1 else 0)).sum = cs.countP q := by
  intro cs
  induction cs with
  | nil => simp
  | cons c t ih =>
    rw [List.map_cons, List.sum_cons, List.countP_cons, ih]
    cases hq : q c
    · simp
    · simp [Nat.add_comm]

theorem countP_eq_one_unique {α : Type} (q : α → Bool) :
    ∀ cs : List α, cs.Nodup → ∀ c₀ ∈ cs, q c₀ = true →
      (∀ c ∈ cs, q c = true → c = c₀) → cs.countP q = 1 := by
  intro cs
  induction cs with
  | nil => intro _ c₀ h; simp at h
  | cons c t ih =>
    intro hnd c₀ hc₀ hq huniq
    rcases List.mem_cons.mp hc₀ with rfl | ht
    · rw [List.countP_cons, if_pos hq]
      have hzero : t.countP q = 0 := by
        rw [List.countP_eq_zero]
        intro a ha hqa
        have : a = c₀ := huniq a (List.mem_cons_of_mem _ ha) hqa
        subst this
        exact (List.nodup_cons.mp hnd).1 ha
      omega
    · rw [List.countP_cons]
      have hqc : q c = false := by
        cases hqc : q c
        · rfl
        · have : c = c₀ := huniq c (List.mem_cons_self _ _) hqc
          subst this
          exact absurd ht (List.nodup_cons.mp hnd).1
      rw [if_neg (by simp [hqc])]
      have := ih (List.nodup_cons.mp hnd).2 c₀ ht hq
        (fun a ha hqa => huniq a (List.mem_cons_of_mem _ ha) hqa)
      omega

theorem countP_partition {α β : Type} (E : List α) (cs : List β) (P : α → Bool)
    (Q : β → α → Bool)
    (hcover : ∀ x ∈ E, (P x = true ↔ ∃ c ∈ cs, Q c x = true))
    (huniq : ∀ x ∈ E, ∀ c1 ∈ cs, ∀ c2 ∈ cs, Q c1 x = true → Q c2 x = true → c1 = c2)
    (hnodup : cs.Nodup) :
    E.countP P = (cs.map (fun c => E.countP (Q c))).sum := by
  induction E with
  | nil => simp
  | cons x E' ih =>
    have hmap : ∀ c : β, (fun c => List.countP (Q c) (x :: E')) c
        = (fun c => List.countP (Q c) E' + if Q c x then 1 else 0) c := by
      intro c
      simp [List.countP_cons]
    rw [List.countP_cons,
      ih (fun y hy => hcover y (List.mem_cons_of_mem _ hy))
        (fun y hy => huniq y (List.mem_cons_of_mem _ hy)),
      List.map_congr_left (fun c _ => hmap c), sum_map_add,
      sum_map_ite_count (fun c => Q c x)]
    have hx : (if P x then 1 else 0) = cs.countP (fun c => Q c x) := by
      cases hP : P x
      · have hqf : ∀ c ∈ cs, Q c x = false := by
          intro c hc
          cases hQ : Q c x
          · rfl
          · have hPx : P x = true := (hcover x (List.mem_cons_self _ _)).mpr ⟨c, hc, hQ⟩
            rw [hP] at hPx
            exact absurd hPx (by simp)
        have hz : cs.countP (fun c => Q c x) = 0 := by
          rw [List.countP_eq_zero]
          intro c hc
          rw [hqf c hc]
          simp
        rw [hz]
        simp
      · obtain ⟨c₀, hc₀, hQ₀⟩ := (hcover x (List.mem_cons_self _ _)).mp hP
        rw [if_pos rfl,
          countP_eq_one_unique (fun c => Q c x) cs hnodup c₀ hc₀ hQ₀
            (fun c hc hq => huniq x (List.mem_cons_self _ _) c hc c₀ hc₀ hq hQ₀)]
    omega

theorem countP_split {α : Type} (p q : α → Bool) :
    ∀ l : List α,
      l.countP p = l.countP (fun a => p a && q a) + l.countP (fun a => p a && !q a) := by
  intro l
  induction l with
  | nil => simp
  | cons a t ih =>
    simp only [List.countP_cons, ih]
    cases hp : p a <;> cases hq : q a <;> simp [hp, hq] <;> omega

theorem countP_concatAll {α : Type} (p : α → Bool) :
    ∀ L : List (List α), (concatAll L).countP p = (L.map (fun l => l.countP p)).sum := by
  intro L
  induction L with
  | nil => simp [concatAll]
  | cons l t ih =>
    simp only [concatAll, List.foldr_cons, List.map_cons, List.sum_cons]
    rw [List.countP_append]
    have : (t.foldr (fun a b => a ++ b) []) = concatAll t := rfl
    rw [this, ih]

/-! ### Occurrence and character lemmas for the classifiers -/

theorem startsWithSeq_mem {α : Type} [BEq α] [LawfulBEq α] {p l : List α}
    (h : startsWithSeq p l = true) : ∀ c ∈ p, c ∈ l := by
  obtain ⟨t, ht⟩ := (startsWithSeq_iff p l).mp h
  intro c hc
  rw [← ht]
  exact List.mem_append_left t hc

theorem hasRun_mem {α : Type} [BEq α] [LawfulBEq α] {pat : List α} :
    ∀ {l : List α}, hasRun pat l = true → ∀ c ∈ pat, c ∈ l := by
  intro l
  induction l with
  | nil =>
    intro h c hc
    cases pat with
    | nil => simp at hc
    | cons a as => simp [hasRun, startsWithSeq] at h
  | cons x rest ih =>
    intro h c hc
    rcases Bool.or_eq_true_iff.mp (by simpa [hasRun] using h) with hs | hr
    · exact startsWithSeq_mem hs c hc
    · exact List.mem_cons_of_mem _ (ih hr c hc)

theorem startsWithSeq_self_append {α : Type} [BEq α] [LawfulBEq α] (p t : List α) :
    startsWithSeq p (p ++ t) = true :=
  (startsWithSeq_iff p (p ++ t)).mpr ⟨t, rfl⟩

theorem hasRun_of_middle {α : Type} [BEq α] [LawfulBEq α] (pat : List α) :
    ∀ (a b : List α), hasRun pat (a ++ (pat ++ b)) = true := by
  intro a
  induction a with
  | nil =>
    intro b
    rw [List.nil_append]
    cases hpb : pat ++ b with
    | nil =>
      have hp : pat = [] := by
        cases pat with
        | nil => rfl
        | cons x xs => simp at hpb
      subst hp
      simp [hasRun, startsWithSeq]
    | cons c l =>
      have := startsWithSeq_self_append pat b
      rw [hpb] at this
      simp [hasRun, this]
  | cons x a' ih =>
    intro b
    rw [List.cons_append]
    simp [hasRun, ih b]

/-- `c` does not occur in the string. -/
def noChar (c : Char) (s : String) : Prop := c ∉ s.data

instance (c : Char) (s : String) : Decidable (noChar c s) := by
  unfold noChar
  infer_instance

theorem noChar_append {c : Char} {s t : String} (hs : noChar c s) (ht : noChar c t) :
    noChar c (s ++ t) := by
  unfold noChar at *
  rw [string_data_append]
  intro h
  rcases List.mem_append.mp h with h | h
  · exact hs h
  · exact ht h

theorem noChar_indStr {c : Char} (h : c ≠ ' ') (n : Nat) : noChar c (indStr n) := by
  unfold noChar indStr
  intro hmem
  have : c = ' ' := by
    have hd : (String.mk (List.replicate (n * 2) ' ')).data = List.replicate (n * 2) ' ' := rfl
    rw [hd] at hmem
    exact (List.mem_replicate.mp hmem).2
  exact h this

theorem noChar_joinSep {c : Char} {sep : String} (hsep : noChar c sep) :
    ∀ {l : List String}, (∀ s ∈ l, noChar c s) → noChar c (joinSep sep l) := by
  intro l
  induction l with
  | nil =>
    intro _
    unfold noChar joinSep
    simp
  | cons x xs ih =>
    intro hl
    cases xs with
    | nil => exact hl x (List.mem_cons_self _ _)
    | cons y t =>
      have hx : noChar c x := hl x (List.mem_cons_self _ _)
      have hrest : noChar c (joinSep sep (y :: t)) :=
        ih (fun s hs => hl s (List.mem_cons_of_mem _ hs))
      exact noChar_append (noChar_append hx hsep) hrest

theorem isElementLine_false_of_noEq {s : String} (h : noChar '=' s) :
    isElementLine s = false := by
  unfold isElementLine
  cases hr : hasRun " = ".data s.data with
  | false => simp
  | true =>
    exact absurd (hasRun_mem hr '=' (by decide)) h

theorem isRelationLine_false_of_noGt {s : String} (h : noChar '>' s) :
    isRelationLine s = false := by
  unfold isRelationLine
  cases hr : hasRun " -> ".data s.data with
  | false => simp
  | true =>
    exact absurd (hasRun_mem hr '>' (by decide)) h

theorem isElementLine_true_of {s : String} (h1 : ∃ a b, s.data = a ++ (" = ".data ++ b))
    (h2 : noChar '/' s) : isElementLine s = true := by
  obtain ⟨a, b, hab⟩ := h1
  unfold isElementLine
  rw [hab, hasRun_of_middle " = ".data a b]
  cases hr : hasRun "//".data (a ++ (" = ".data ++ b)) with
  | false => simp
  | true =>
    exfalso
    apply h2
    rw [hab]
    exact hasRun_mem hr '/' (by decide)

theorem isRelationLine_true_of {s : String} (h1 : ∃ a b, s.data = a ++ (" -> ".data ++ b))
    (h2 : noChar '/' s) : isRelationLine s = true := by
  obtain ⟨a, b, hab⟩ := h1
  unfold isRelationLine
  rw [hab, hasRun_of_middle " -> ".data a b]
  cases hr : hasRun "//".data (a ++ (" -> ".data ++ b)) with
  | false => simp
  | true =>
    exfalso
    apply h2
    rw [hab]
    exact hasRun_mem hr '/' (by decide)

/-! ### Sanity of the model's text fields

These hypotheses are what the round-trip count needs: the model's text fields
must not contain the DSL's own tokens (`=`, `>`, the comment marker's `/`, or
a newline), and URI-encoded links must be space-free, percent-encoded text. -/

/-- A model text field that stays clear of the DSL's structural characters. -/
def saneStr (s : String) : Prop :=
  ∀ c ∈ s.data, c ≠ '=' ∧ c ≠ '>' ∧ c ≠ '/' ∧ c ≠ '\n'

/-- A URI-encoded link: no spaces (encoded as `%20`), no `=`, `>`, newline. -/
def encSane (s : String) : Prop :=
  ∀ c ∈ s.data, c ≠ ' ' ∧ c ≠ '=' ∧ c ≠ '>' ∧ c ≠ '\n'

/-- Every segment of the path is sane. -/
def saneFqn (f : List String) : Prop := ∀ s ∈ f, saneStr s

theorem saneStr_noEq {s : String} (h : saneStr s) : noChar '=' s :=
  fun hmem => (h _ hmem).1 rfl

theorem saneStr_noGt {s : String} (h : saneStr s) : noChar '>' s :=
  fun hmem => (h _ hmem).2.1 rfl

theorem saneStr_noSlash {s : String} (h : saneStr s) : noChar '/' s :=
  fun hmem => (h _ hmem).2.2.1 rfl

theorem encSane_noEq {s : String} (h : encSane s) : noChar '=' s :=
  fun hmem => (h _ hmem).2.1 rfl

theorem encSane_noGt {s : String} (h : encSane s) : noChar '>' s :=
  fun hmem => (h _ hmem).2.2.1 rfl

theorem getLastD_mem_or {α : Type} :
    ∀ (l : List α) (d : α), l.getLastD d = d ∨ l.getLastD d ∈ l := by
  intro l
  induction l with
  | nil => intro d; exact Or.inl rfl
  | cons a l' ih =>
    intro d
    rw [List.getLastD_cons]
    rcases ih a with hd | hmem
    · right
      rw [hd]
      exact List.mem_cons_self _ _
    · exact Or.inr (List.mem_cons_of_mem _ hmem)

theorem saneFqn_name {f : List String} (h : saneFqn f) : saneStr (nameFromFqnM f) := by
  unfold nameFromFqnM
  cases f with
  | nil =>
    intro c hc
    simp at hc
  | cons a t =>
    rcases getLastD_mem_or (a :: t) "" with hd | hmem
    · rw [hd]
      intro c hc
      simp at hc
    · exact h _ hmem

theorem saneFqn_noEq_str {f : List String} (h : saneFqn f) : noChar '=' (fqnStr f) :=
  noChar_joinSep (by decide) (fun s hs => saneStr_noEq (h s hs))

theorem saneFqn_noGt_str {f : List String} (h : saneFqn f) : noChar '>' (fqnStr f) :=
  noChar_joinSep (by decide) (fun s hs => saneStr_noGt (h s hs))

theorem saneFqn_noSlash_str {f : List String} (h : saneFqn f) : noChar '/' (fqnStr f) :=
  noChar_joinSep (by decide) (fun s hs => saneStr_noSlash (h s hs))

/-- Sanity of one element's text fields, including what the external string
helpers produce for it. -/
def elemSane (ctx : DslCtx) (el : Elem) : Prop :=
  saneFqn el.id ∧ saneStr el.kind ∧ saneStr el.title ∧ saneStr el.description
    ∧ (∀ t, el.technology = some t → saneStr t)
    ∧ (∀ t ∈ el.tags.getD [], saneStr t)
    ∧ (∀ l ∈ el.links.getD [], encSane (ctx.encodeURIFn l))
    ∧ saneStr (ctx.dasherizeFn (viewNameArg el))

/-- Sanity of one relation's text fields. -/
def relSane (r : Rel) : Prop :=
  saneFqn r.source ∧ saneFqn r.target ∧ saneStr r.title
    ∧ (∀ t ∈ r.tags.getD [], saneStr t)

/-- The well-formedness the round-trip count needs: distinct element ids,
non-empty paths, every parent path present (the spec's DiagramElement
invariant), and sane text fields everywhere. -/
def dslWellFormed (ctx : DslCtx) (m : ModelIndex) : Prop :=
  (m.elements.map (fun el => el.id)).Nodup
    ∧ (∀ el ∈ m.elements, el.id ≠ [])
    ∧ (∀ el ∈ m.elements, ∀ p, parentF el.id = some p → ∃ pe ∈ m.elements, pe.id = p)
    ∧ (∀ el ∈ m.elements, elemSane ctx el)
    ∧ (∀ r ∈ m.relations, relSane r)

instance (s : String) : Decidable (saneStr s) := by
  unfold saneStr
  infer_instance

instance (s : String) : Decidable (encSane s) := by
  unfold encSane
  infer_instance

instance (f : List String) : Decidable (saneFqn f) := by
  unfold saneFqn
  infer_instance

instance (ctx : DslCtx) (el : Elem) : Decidable (elemSane ctx el) := by
  unfold elemSane
  infer_instance

instance (r : Rel) : Decidable (relSane r) := by
  unfold relSane
  infer_instance

instance (ctx : DslCtx) (m : ModelIndex) : Decidable (dslWellFormed ctx m) := by
  unfold dslWellFormed
  infer_instance

theorem nodup_map_inj {α β : Type} (f : α → β) :
    ∀ l : List α, (l.map f).Nodup → ∀ x ∈ l, ∀ y ∈ l, f x = f y → x = y := by
  intro l
  induction l with
  | nil => intro _ x hx; simp at hx
  | cons a t ih =>
    intro hnd x hx y hy hf
    rw [List.map_cons, List.nodup_cons] at hnd
    rcases List.mem_cons.mp hx with rfl | hxt
    · rcases List.mem_cons.mp hy with rfl | hyt
      · rfl
      · exact absurd (hf ▸ List.mem_map_of_mem f hyt) hnd.1
    · rcases List.mem_cons.mp hy with rfl | hyt
      · exact absurd (hf ▸ List.mem_map_of_mem f hxt) hnd.1
      · exact ih hnd.2 x hxt y hyt hf

/-! ### Path and tree structure of a well-formed model -/

theorem startsRun_refl {α : Type} [BEq α] [LawfulBEq α] (l : List α) :
    startsWithSeq l l = true :=
  (startsWithSeq_iff l l).mpr ⟨[], by simp⟩

theorem startsRun_take {α : Type} [BEq α] [LawfulBEq α] (l : List α) (k : Nat) :
    startsWithSeq (l.take k) l = true :=
  (startsWithSeq_iff (l.take k) l).mpr ⟨l.drop k, List.take_append_drop k l⟩

theorem startsRun_trans {α : Type} [BEq α] [LawfulBEq α] {a b c : List α}
    (hab : startsWithSeq a b = true) (hbc : startsWithSeq b c = true) :
    startsWithSeq a c = true := by
  obtain ⟨t1, rfl⟩ := (startsWithSeq_iff a b).mp hab
  obtain ⟨t2, rfl⟩ := (startsWithSeq_iff (a ++ t1) _).mp hbc
  exact (startsWithSeq_iff a _).mpr ⟨t1 ++ t2, by simp⟩

theorem startsRun_length {α : Type} [BEq α] [LawfulBEq α] {a b : List α}
    (h : startsWithSeq a b = true) : a.length ≤ b.length := by
  obtain ⟨t, rfl⟩ := (startsWithSeq_iff a b).mp h
  simp

theorem startsRun_eq_of_length {α : Type} [BEq α] [LawfulBEq α] {a b x : List α}
    (ha : startsWithSeq a x = true) (hb : startsWithSeq b x = true)
    (hlen : a.length = b.length) : a = b := by
  obtain ⟨t1, ht1⟩ := (startsWithSeq_iff a x).mp ha
  obtain ⟨t2, ht2⟩ := (startsWithSeq_iff b x).mp hb
  exact (List.append_inj (ht1.trans ht2.symm) hlen).1

theorem parentF_none_iff (f : List String) : parentF f = none ↔ f.length ≤ 1 := by
  cases f with
  | nil => simp [parentF]
  | cons a t =>
    cases t with
    | nil => simp [parentF]
    | cons b t' => simp [parentF]

theorem parentF_two {f : List String} (h : 2 ≤ f.length) : parentF f = some f.dropLast := by
  match f, h with
  | a :: b :: t, _ => rfl

theorem parentF_concat {p : List String} (s : String) (h : p ≠ []) :
    parentF (p ++ [s]) = some p := by
  have h2 : 2 ≤ (p ++ [s]).length := by
    cases p with
    | nil => exact absurd rfl h
    | cons a t => simp
  rw [parentF_two h2, List.dropLast_concat]

theorem parentF_some_decomp {f p : List String} (h : parentF f = some p) :
    ∃ s, f = p ++ [s] := by
  cases f with
  | nil => simp [parentF] at h
  | cons a t =>
    cases t with
    | nil => simp [parentF] at h
    | cons b t' =>
      have h2 := parentF_two (f := a :: b :: t') (by simp)
      rw [h2] at h
      have hp : p = (a :: b :: t').dropLast := (Option.some.inj h).symm
      subst hp
      exact ⟨(a :: b :: t').getLast (by simp),
        (List.dropLast_append_getLast (by simp)).symm⟩

theorem mem_childrenM {m : ModelIndex} {p : List String} {c : Elem} :
    c ∈ childrenM m p ↔ c ∈ m.elements ∧ parentF c.id = some p := by
  unfold childrenM
  rw [List.mem_filter]
  simp

theorem childrenM_decomp {m : ModelIndex} {p : List String} {c : Elem}
    (h : c ∈ childrenM m p) : c ∈ m.elements ∧ ∃ s, c.id = p ++ [s] := by
  obtain ⟨hmem, hpf⟩ := mem_childrenM.mp h
  exact ⟨hmem, parentF_some_decomp hpf⟩

theorem mem_rootElementsM {m : ModelIndex} {r : Elem} :
    r ∈ rootElementsM m ↔ r ∈ m.elements ∧ parentF r.id = none := by
  unfold rootElementsM
  rw [List.mem_filter]
  simp [Option.isNone_iff_eq_none]

theorem ancestor_present {ctx : DslCtx} {m : ModelIndex} (hwf : dslWellFormed ctx m) :
    ∀ x ∈ m.elements, ∀ k, 1 ≤ k → k ≤ x.id.length →
      ∃ a ∈ m.elements, a.id = x.id.take k := by
  obtain ⟨hnodup, hne, hparent, _⟩ := hwf
  intro x hx
  suffices h : ∀ j k, k + j = x.id.length → 1 ≤ k → ∃ a ∈ m.elements, a.id = x.id.take k by
    intro k h1 h2
    exact h (x.id.length - k) k (by omega) h1
  intro j
  induction j with
  | zero =>
    intro k hk h1
    refine ⟨x, hx, ?_⟩
    rw [show k = x.id.length by omega, List.take_length]
  | succ j' ih =>
    intro k hk h1
    obtain ⟨a, ha, haid⟩ := ih (k + 1) (by omega) (by omega)
    have hlen : a.id.length = k + 1 := by
      rw [haid, List.length_take]
      omega
    have hpf : parentF a.id = some a.id.dropLast := parentF_two (by omega)
    obtain ⟨pe, hpe, hpeid⟩ := hparent a ha _ hpf
    refine ⟨pe, hpe, ?_⟩
    rw [hpeid, haid, List.dropLast_eq_take, List.length_take, List.take_take]
    congr 1
    omega

theorem id_length_le {ctx : DslCtx} {m : ModelIndex} (hwf : dslWellFormed ctx m) :
    ∀ x ∈ m.elements, x.id.length ≤ m.elements.length := by
  intro x hx
  classical
  have hnd : ((List.range x.id.length).map (fun j => x.id.take (j + 1))).Nodup := by
    apply List.Nodup.map_on ?_ (List.nodup_range x.id.length)
    intro a ha b hb hab
    simp only [List.mem_range] at ha hb
    have la : (x.id.take (a + 1)).length = a + 1 := by
      rw [List.length_take]
      omega
    have lb : (x.id.take (b + 1)).length = b + 1 := by
      rw [List.length_take]
      omega
    have := congrArg List.length hab
    rw [la, lb] at this
    omega
  have hsub : ∀ y ∈ (List.range x.id.length).map (fun j => x.id.take (j + 1)),
      y ∈ m.elements.map (fun el => el.id) := by
    intro y hy
    simp only [List.mem_map, List.mem_range] at hy
    obtain ⟨j, hj, hyj⟩ := hy
    obtain ⟨a, ha, haid⟩ := ancestor_present hwf x hx (j + 1) (by omega) (by omega)
    exact List.mem_map.mpr ⟨a, ha, by rw [haid, hyj]⟩
  have h1 : ((List.range x.id.length).map (fun j => x.id.take (j + 1))).toFinset.card
      = x.id.length := by
    rw [List.toFinset_card_of_nodup hnd]
    simp
  have h2 : ((List.range x.id.length).map (fun j => x.id.take (j + 1))).toFinset
      ⊆ (m.elements.map (fun el => el.id)).toFinset := by
    intro y hy
    rw [List.mem_toFinset] at hy
    rw [List.mem_toFinset]
    exact hsub y hy
  calc x.id.length
      = ((List.range x.id.length).map (fun j => x.id.take (j + 1))).toFinset.card := h1.symm
    _ ≤ (m.elements.map (fun el => el.id)).toFinset.card := Finset.card_le_card h2
    _ ≤ (m.elements.map (fun el => el.id)).length := List.toFinset_card_le _
    _ = m.elements.length := by simp

/-- The number of elements in `el`'s subtree (those whose path extends
`el`'s). -/
def subtreeCount (m : ModelIndex) (el : Elem) : Nat :=
  m.elements.countP (fun x => startsWithSeq el.id x.id)

theorem elements_nodup {ctx : DslCtx} {m : ModelIndex} (hwf : dslWellFormed ctx m) :
    m.elements.Nodup :=
  List.Nodup.of_map _ hwf.1

theorem elements_id_inj {ctx : DslCtx} {m : ModelIndex} (hwf : dslWellFormed ctx m)
    {x y : Elem} (hx : x ∈ m.elements) (hy : y ∈ m.elements) (h : x.id = y.id) : x = y :=
  nodup_map_inj (fun el => el.id) m.elements hwf.1 x hx y hy h

theorem subtree_decomp {ctx : DslCtx} {m : ModelIndex} (hwf : dslWellFormed ctx m)
    {el : Elem} (hel : el ∈ m.elements) :
    subtreeCount m el = 1 + ((childrenM m el.id).map (fun c => subtreeCount m c)).sum := by
  have hnodup := hwf.1
  have hne := hwf.2.1
  have hparent := hwf.2.2.1
  unfold subtreeCount
  rw [countP_split (fun x => startsWithSeq el.id x.id) (fun x => x.id == el.id) m.elements]
  have hid : m.elements.countP (fun x => startsWithSeq el.id x.id && x.id == el.id) = 1 := by
    have hcg : ∀ x ∈ m.elements,
        ((startsWithSeq el.id x.id && x.id == el.id) = true ↔ (x.id == el.id) = true) := by
      intro x _
      cases hbeq : (x.id == el.id) with
      | false => simp
      | true =>
        have : x.id = el.id := by simpa using hbeq
        rw [this, startsRun_refl]
        simp
    rw [List.countP_congr hcg]
    exact countP_eq_one_unique _ m.elements (elements_nodup hwf)
      el hel (by simp)
      (fun y hy hq => elements_id_inj hwf hy hel (by simpa using hq))
  have hprop : m.elements.countP (fun x => startsWithSeq el.id x.id && !(x.id == el.id))
      = ((childrenM m el.id).map (fun c => subtreeCount m c)).sum := by
    apply countP_partition m.elements (childrenM m el.id) _
      (fun c x => startsWithSeq c.id x.id)
    · intro x hx
      constructor
      · intro hP
        obtain ⟨hrun, hneq⟩ := Bool.and_eq_true_iff.mp hP
        obtain ⟨rest, hrest⟩ := (startsWithSeq_iff el.id x.id).mp hrun
        cases rest with
        | nil =>
          exfalso
          have : x.id = el.id := by rw [← hrest]; simp
          simp [this] at hneq
        | cons s rest' =>
          have hk : el.id.length + 1 ≤ x.id.length := by
            rw [← hrest]
            simp
          obtain ⟨a, ha, haid⟩ := ancestor_present hwf x hx (el.id.length + 1) (by omega) hk
          have htake : x.id.take (el.id.length + 1) = el.id ++ [s] := by
            rw [← hrest, List.take_append]
            simp
          refine ⟨a, ?_, ?_⟩
          · rw [mem_childrenM]
            refine ⟨ha, ?_⟩
            rw [haid, htake]
            exact parentF_concat s (hne el hel)
          · rw [haid, htake]
            exact (startsWithSeq_iff _ _).mpr ⟨rest', by rw [← hrest]; simp⟩
      · rintro ⟨c, hc, hQ⟩
        obtain ⟨hcm, s, hcid⟩ := childrenM_decomp hc
        obtain ⟨t, ht⟩ := (startsWithSeq_iff c.id x.id).mp hQ
        rw [hcid] at ht
        have hrun : startsWithSeq el.id x.id = true :=
          (startsWithSeq_iff _ _).mpr ⟨[s] ++ t, by rw [← ht]; simp⟩
        have hneq : (x.id == el.id) = false := by
          cases hbeq : (x.id == el.id) with
          | false => rfl
          | true =>
            exfalso
            have hxe : x.id = el.id := by simpa using hbeq
            have := congrArg List.length ht
            rw [hxe] at this
            simp at this
        simp [hrun, hneq]
    · intro x hx c1 hc1 c2 hc2 h1 h2
      obtain ⟨hm1, s1, hid1⟩ := childrenM_decomp hc1
      obtain ⟨hm2, s2, hid2⟩ := childrenM_decomp hc2
      have hlen : c1.id.length = c2.id.length := by
        rw [hid1, hid2]
        simp
      exact elements_id_inj hwf hm1 hm2 (startsRun_eq_of_length h1 h2 hlen)
    · exact List.Nodup.filter _ (List.Nodup.of_map _ hnodup)
  rw [hid, hprop]
  simp [subtreeCount]

theorem root_length_one {ctx : DslCtx} {m : ModelIndex} (hwf : dslWellFormed ctx m)
    {r : Elem} (hr : r ∈ rootElementsM m) : r.id.length = 1 := by
  obtain ⟨hmem, hpf⟩ := mem_rootElementsM.mp hr
  have h1 : r.id.length ≤ 1 := (parentF_none_iff r.id).mp hpf
  have h2 : r.id ≠ [] := hwf.2.1 r hmem
  cases hid : r.id with
  | nil => exact absurd hid h2
  | cons a t =>
    rw [hid] at h1
    simp at h1
    simp [hid, h1]

theorem total_count {ctx : DslCtx} {m : ModelIndex} (hwf : dslWellFormed ctx m) :
    ((rootElementsM m).map (fun r => subtreeCount m r)).sum = m.elements.length := by
  have hpart := countP_partition m.elements (rootElementsM m) (fun _ => true)
    (fun r x => startsWithSeq r.id x.id) ?_ ?_ ?_
  · rw [List.countP_true] at hpart
    exact hpart.symm
  · intro x hx
    simp only [true_iff]
    have hxne : x.id ≠ [] := hwf.2.1 x hx
    have hk : 1 ≤ x.id.length := by
      cases hid : x.id with
      | nil => exact absurd hid hxne
      | cons a t => simp
    obtain ⟨a, ha, haid⟩ := ancestor_present hwf x hx 1 (by omega) hk
    refine ⟨a, ?_, ?_⟩
    · rw [mem_rootElementsM]
      refine ⟨ha, (parentF_none_iff a.id).mpr ?_⟩
      rw [haid, List.length_take]
      omega
    · rw [haid]
      exact startsRun_take x.id 1
  · intro x hx r1 hr1 r2 hr2 h1 h2
    have hlen : r1.id.length = r2.id.length := by
      rw [root_length_one hwf hr1, root_length_one hwf hr2]
    exact elements_id_inj hwf (mem_rootElementsM.mp hr1).1 (mem_rootElementsM.mp hr2).1
      (startsRun_eq_of_length h1 h2 hlen)
  · exact List.Nodup.filter _ (elements_nodup hwf)

/-! ### Classification of the emitted line kinds -/

theorem noChar_empty {c : Char} : noChar c ("" : String) := fun h => List.not_mem_nil c h

theorem mem_concatAll {α : Type} {x : α} :
    ∀ {L : List (List α)}, x ∈ concatAll L ↔ ∃ l ∈ L, x ∈ l := by
  intro L
  induction L with
  | nil => simp [concatAll]
  | cons l t ih =>
    simp only [concatAll, List.foldr_cons]
    have hrec : (t.foldr (fun a b => a ++ b) []) = concatAll t := rfl
    rw [hrec]
    constructor
    · intro h
      rcases List.mem_append.mp h with h | h
      · exact ⟨l, List.mem_cons_self _ _, h⟩
      · obtain ⟨l2, hl2, hx⟩ := ih.mp h
        exact ⟨l2, List.mem_cons_of_mem _ hl2, hx⟩
    · rintro ⟨l2, hl2, hx⟩
      rcases List.mem_cons.mp hl2 with rfl | hl2
      · exact List.mem_append_left _ hx
      · exact List.mem_append_right _ (ih.mpr ⟨l2, hl2, hx⟩)

theorem mem_dedupeFirst {x : String} :
    ∀ {l : List String}, x ∈ dedupeFirst l → x ∈ l := by
  have haux : ∀ (l : List String) (acc : List String),
      ∀ y ∈ l.foldl (fun acc x => if x ∈ acc then acc else acc ++ [x]) acc,
        y ∈ acc ∨ y ∈ l := by
    intro l
    induction l with
    | nil => intro acc y hy; exact Or.inl hy
    | cons a t ih =>
      intro acc y hy
      rw [List.foldl_cons] at hy
      rcases ih _ y hy with hstep | ht
      · by_cases ha : a ∈ acc
        · rw [if_pos ha] at hstep
          exact Or.inl hstep
        · rw [if_neg ha] at hstep
          rcases List.mem_append.mp hstep with h | h
          · exact Or.inl h
          · have : y = a := by simpa using h
            exact Or.inr (this ▸ List.mem_cons_self _ _)
      · exact Or.inr (List.mem_cons_of_mem _ ht)
  intro l hx
  rcases haux l [] x hx with h | h
  · simp at h
  · exact h

theorem foldl_lines_eq :
    ∀ (L : List (List String × List Elem)) (init : List String),
      L.foldl (fun acc p => acc ++ [""] ++ p.1) init
        = init ++ concatAll (L.map (fun p => "" :: p.1)) := by
  intro L
  induction L with
  | nil => intro init; simp [concatAll]
  | cons p t ih =>
    intro init
    rw [List.foldl_cons, ih]
    simp [concatAll]

theorem foldl_conts_eq :
    ∀ (L : List (List String × List Elem)) (init : List Elem),
      L.foldl (fun acc p => acc ++ p.2) init = init ++ concatAll (L.map (fun p => p.2)) := by
  intro L
  induction L with
  | nil => intro init; simp [concatAll]
  | cons p t ih =>
    intro init
    rw [List.foldl_cons, ih]
    simp [concatAll]

theorem noChar_tagsLine {c : Char} (hsp : c ≠ ' ') (hcomma : noChar c ", ")
    (hhash : noChar c "#") {ts : List String} (hts : ∀ t ∈ ts, noChar c t) (ind : Nat) :
    noChar c (tagsLine ind ts) := by
  unfold tagsLine
  apply noChar_append (noChar_indStr hsp ind)
  apply noChar_joinSep hcomma
  intro s hs
  obtain ⟨t, ht, rfl⟩ := List.mem_map.mp hs
  exact noChar_append hhash (hts t ht)

theorem noChar_linkLine {c : Char} (hsp : c ≠ ' ') (hlink : noChar c "link ")
    {ctx : DslCtx} {link : String} (henc : noChar c (ctx.encodeURIFn link)) (ind : Nat) :
    noChar c (linkLine ctx ind link) :=
  noChar_append (noChar_append (noChar_indStr hsp ind) hlink) henc

theorem noChar_elementHeaderTail {c : Char} {el : Elem} (hq1 : noChar c " '")
    (hq2 : noChar c "'") (hq3 : noChar c " \x7b") (hk : noChar c el.kind)
    (ht : noChar c el.title) (hd : noChar c el.description)
    (htech : ∀ t, el.technology = some t → noChar c t) :
    noChar c (elementHeaderTail el) := by
  unfold elementHeaderTail
  have h3 : noChar c (el.kind ++ " '" ++ el.title ++ "'") :=
    noChar_append (noChar_append (noChar_append hk hq1) ht) hq2
  have h4 : noChar c
      (if el.description != "" || optTruthy el.technology then " '" ++ el.description ++ "'"
       else "") := by
    split
    · exact noChar_append (noChar_append hq1 hd) hq2
    · exact noChar_empty
  have h5 : noChar c (match el.technology with
      | some t => if t != "" then " '" ++ t ++ "'" else ""
      | none => "") := by
    cases htc : el.technology with
    | none => exact noChar_empty
    | some t =>
      simp only []
      split
      · exact noChar_append (noChar_append hq1 (htech t htc)) hq2
      · exact noChar_empty
  have h6 : noChar c (if el.tags.isSome then " \x7b" else "") := by
    split
    · exact hq3
    · exact noChar_empty
  exact noChar_append (noChar_append (noChar_append h3 h4) h5) h6

theorem noChar_elementHeaderLine {c : Char} {el : Elem} (hsp : c ≠ ' ')
    (heq : noChar c " = ") (hname : noChar c (nameFromFqnM el.id))
    (htail : noChar c (elementHeaderTail el)) (ind : Nat) :
    noChar c (elementHeaderLine ind el) :=
  noChar_append (noChar_append (noChar_append (noChar_indStr hsp ind) hname) heq) htail

theorem elementHeaderLine_isElement {ctx : DslCtx} {el : Elem} (hsane : elemSane ctx el)
    (ind : Nat) : isElementLine (elementHeaderLine ind el) = true := by
  apply isElementLine_true_of
  · refine ⟨(indStr ind ++ nameFromFqnM el.id).data, (elementHeaderTail el).data, ?_⟩
    simp [elementHeaderLine, string_data_append, List.append_assoc]
  · exact noChar_elementHeaderLine (by decide) (by decide)
      (saneStr_noSlash (saneFqn_name hsane.1))
      (noChar_elementHeaderTail (by decide) (by decide) (by decide)
        (saneStr_noSlash hsane.2.1) (saneStr_noSlash hsane.2.2.1)
        (saneStr_noSlash hsane.2.2.2.1)
        (fun t ht => saneStr_noSlash (hsane.2.2.2.2.1 t ht))) ind

theorem elementHeaderLine_notRelation {ctx : DslCtx} {el : Elem} (hsane : elemSane ctx el)
    (ind : Nat) : isRelationLine (elementHeaderLine ind el) = false :=
  isRelationLine_false_of_noGt
    (noChar_elementHeaderLine (by decide) (by decide)
      (saneStr_noGt (saneFqn_name hsane.1))
      (noChar_elementHeaderTail (by decide) (by decide) (by decide)
        (saneStr_noGt hsane.2.1) (saneStr_noGt hsane.2.2.1)
        (saneStr_noGt hsane.2.2.2.1)
        (fun t ht => saneStr_noGt (hsane.2.2.2.2.1 t ht))) ind)

theorem noChar_relationLineTail {c : Char} {r : Rel} (hq1 : noChar c " '")
    (hq2 : noChar c "'") (hbr1 : noChar c " \x7b") (hbr2 : noChar c "\x7d")
    (hcomma : noChar c ", ") (hhash : noChar c "#") (hdot : noChar c ".")
    (htgt : ∀ s ∈ r.target, noChar c s) (htitle : noChar c r.title)
    (hts : ∀ t ∈ r.tags.getD [], noChar c t) :
    noChar c (relationLineTail r) := by
  unfold relationLineTail
  have h1 : noChar c (fqnStr r.target) := noChar_joinSep hdot htgt
  have h2 : noChar c (if r.title != "" then " '" ++ r.title ++ "'" else "") := by
    split
    · exact noChar_append (noChar_append hq1 htitle) hq2
    · exact noChar_empty
  have h3 : noChar c (match r.tags with
      | some ts => " \x7b" ++ joinSep ", " (ts.map (fun t => "#" ++ t)) ++ "\x7d"
      | none => "") := by
    cases htags : r.tags with
    | none => exact noChar_empty
    | some ts =>
      simp only []
      refine noChar_append (noChar_append hbr1 ?_) hbr2
      apply noChar_joinSep hcomma
      intro s hs
      obtain ⟨t, ht, rfl⟩ := List.mem_map.mp hs
      refine noChar_append hhash (hts t ?_)
      rw [htags]
      simpa using ht
  exact noChar_append (noChar_append h1 h2) h3

theorem relationLine_isRelation {r : Rel} (hsane : relSane r) :
    isRelationLine (relationLine r) = true := by
  apply isRelationLine_true_of
  · refine ⟨(indStr 1 ++ fqnStr r.source).data, (relationLineTail r).data, ?_⟩
    simp [relationLine, string_data_append, List.append_assoc]
  · refine noChar_append (noChar_append (noChar_append (noChar_indStr (by decide) 1)
      (saneFqn_noSlash_str hsane.1)) (by decide)) ?_
    exact noChar_relationLineTail (by decide) (by decide) (by decide) (by decide)
      (by decide) (by decide) (by decide)
      (fun s hs => saneStr_noSlash (hsane.2.1 s hs)) (saneStr_noSlash hsane.2.2.1)
      (fun t ht => saneStr_noSlash (hsane.2.2.2 t ht))

theorem relationLine_notElement {r : Rel} (hsane : relSane r) :
    isElementLine (relationLine r) = false := by
  apply isElementLine_false_of_noEq
  refine noChar_append (noChar_append (noChar_append (noChar_indStr (by decide) 1)
    (saneFqn_noEq_str hsane.1)) (by decide)) ?_
  exact noChar_relationLineTail (by decide) (by decide) (by decide) (by decide)
    (by decide) (by decide) (by decide)
    (fun s hs => saneStr_noEq (hsane.2.1 s hs)) (saneStr_noEq hsane.2.2.1)
    (fun t ht => saneStr_noEq (hsane.2.2.2 t ht))

/-! ### Counting the traversal's lines -/

theorem toElementDslF_succ (ctx : DslCtx) (m : ModelIndex) (fuel ind : Nat) (el : Elem) :
    toElementDslF ctx m (fuel + 1) ind el =
      (elementHeaderLine ind el ::
        ((match el.tags with
          | some ts => [tagsLine (ind + 1) ts]
          | none => [])
          ++ (el.links.getD []).map (linkLine ctx (ind + 1))
          ++ ((childrenM m el.id).map (fun c => toElementDslF ctx m fuel (ind + 1) c)).foldl
              (fun acc p => acc ++ [""] ++ p.1) []
          ++ (if el.tags.isSome then [indStr (ind + 1) ++ "\x7d", ""] else [])),
        (if (childrenM m el.id).length > 0 then [el] else [])
          ++ ((childrenM m el.id).map (fun c => toElementDslF ctx m fuel (ind + 1) c)).foldl
              (fun acc p => acc ++ p.2) []) := rfl

theorem toElementDsl_conts_sub {ctx : DslCtx} {m : ModelIndex} :
    ∀ (fuel ind : Nat) (el : Elem), el ∈ m.elements →
      ∀ e ∈ (toElementDslF ctx m fuel ind el).2, e ∈ m.elements := by
  intro fuel
  induction fuel with
  | zero =>
    intro ind el hel e he
    simp [toElementDslF] at he
  | succ n ih =>
    intro ind el hel e he
    rw [toElementDslF_succ] at he
    simp only [] at he
    rcases List.mem_append.mp he with hc | hcc
    · by_cases hch : (childrenM m el.id).length > 0
      · rw [if_pos hch] at hc
        have : e = el := by simpa using hc
        exact this ▸ hel
      · rw [if_neg hch] at hc
        simp at hc
    · rw [foldl_conts_eq, List.nil_append] at hcc
      obtain ⟨l, hl, hel2⟩ := mem_concatAll.mp hcc
      simp only [List.map_map, List.mem_map] at hl
      obtain ⟨c, hcmem, hceq⟩ := hl
      have hcm : c ∈ m.elements := (mem_childrenM.mp hcmem).1
      simp only [Function.comp] at hceq
      apply ih (ind + 1) c hcm
      rw [hceq]
      exact hel2

theorem toElementDsl_counts {ctx : DslCtx} {m : ModelIndex} (hwf : dslWellFormed ctx m) :
    ∀ (fuel : Nat) (el : Elem) (ind : Nat), el ∈ m.elements →
      (∀ x ∈ m.elements, startsWithSeq el.id x.id = true →
        x.id.length < el.id.length + fuel) →
      ((toElementDslF ctx m fuel ind el).1.countP (fun s => isElementLine s)
          = subtreeCount m el
        ∧ ∀ line ∈ (toElementDslF ctx m fuel ind el).1, isRelationLine line = false) := by
  intro fuel
  induction fuel with
  | zero =>
    intro el ind hel hfuel
    exact absurd (hfuel el hel (startsRun_refl _)) (by omega)
  | succ n ih =>
    intro el ind hel hfuel
    have hsane : elemSane ctx el := hwf.2.2.2.1 el hel
    have hchild_fuel : ∀ c ∈ childrenM m el.id, ∀ x ∈ m.elements,
        startsWithSeq c.id x.id = true → x.id.length < c.id.length + n := by
      intro c hc x hx hrun
      obtain ⟨hcm, s, hs⟩ := childrenM_decomp hc
      have hel_run : startsWithSeq el.id x.id = true :=
        startsRun_trans (by rw [hs]; exact (startsWithSeq_iff _ _).mpr ⟨[s], rfl⟩) hrun
      have hbound := hfuel x hx hel_run
      have hclen : c.id.length = el.id.length + 1 := by rw [hs]; simp
      omega
    have hchild_ih : ∀ c ∈ childrenM m el.id,
        ((toElementDslF ctx m n (ind + 1) c).1.countP (fun s => isElementLine s)
            = subtreeCount m c
          ∧ ∀ line ∈ (toElementDslF ctx m n (ind + 1) c).1, isRelationLine line = false) :=
      fun c hc => ih c (ind + 1) (mem_childrenM.mp hc).1 (hchild_fuel c hc)
    -- per-kind line facts
    have htagE : ∀ line ∈ (match el.tags with
        | some ts => [tagsLine (ind + 1) ts]
        | none => ([] : List String)), isElementLine line = false := by
      cases htags : el.tags with
      | none => intro line hl; simp at hl
      | some ts =>
        intro line hl
        have : line = tagsLine (ind + 1) ts := by simpa using hl
        subst this
        apply isElementLine_false_of_noEq
        apply noChar_tagsLine (by decide) (by decide) (by decide) ?_ (ind + 1)
        intro t ht
        apply saneStr_noEq
        apply hsane.2.2.2.2.2.1
        rw [htags]
        simpa using ht
    have htagR : ∀ line ∈ (match el.tags with
        | some ts => [tagsLine (ind + 1) ts]
        | none => ([] : List String)), isRelationLine line = false := by
      cases htags : el.tags with
      | none => intro line hl; simp at hl
      | some ts =>
        intro line hl
        have : line = tagsLine (ind + 1) ts := by simpa using hl
        subst this
        apply isRelationLine_false_of_noGt
        apply noChar_tagsLine (by decide) (by decide) (by decide) ?_ (ind + 1)
        intro t ht
        apply saneStr_noGt
        apply hsane.2.2.2.2.2.1
        rw [htags]
        simpa using ht
    have hlinkE : ∀ line ∈ (el.links.getD []).map (linkLine ctx (ind + 1)),
        isElementLine line = false := by
      intro line hl
      obtain ⟨lk, hlk, rfl⟩ := List.mem_map.mp hl
      exact isElementLine_false_of_noEq
        (noChar_linkLine (by decide) (by decide)
          (encSane_noEq (hsane.2.2.2.2.2.2.1 lk hlk)) (ind + 1))
    have hlinkR : ∀ line ∈ (el.links.getD []).map (linkLine ctx (ind + 1)),
        isRelationLine line = false := by
      intro line hl
      obtain ⟨lk, hlk, rfl⟩ := List.mem_map.mp hl
      exact isRelationLine_false_of_noGt
        (noChar_linkLine (by decide) (by decide)
          (encSane_noGt (hsane.2.2.2.2.2.2.1 lk hlk)) (ind + 1))
    have hcloseE : ∀ line ∈ (if el.tags.isSome then [indStr (ind + 1) ++ "\x7d", ""] else []),
        isElementLine line = false := by
      intro line hl
      split at hl
      · rcases List.mem_cons.mp hl with rfl | hl
        · exact isElementLine_false_of_noEq
            (noChar_append (noChar_indStr (by decide) (ind + 1)) (by decide))
        · have : line = "" := by simpa using hl
          subst this
          decide
      · simp at hl
    have hcloseR : ∀ line ∈ (if el.tags.isSome then [indStr (ind + 1) ++ "\x7d", ""] else []),
        isRelationLine line = false := by
      intro line hl
      split at hl
      · rcases List.mem_cons.mp hl with rfl | hl
        · exact isRelationLine_false_of_noGt
            (noChar_append (noChar_indStr (by decide) (ind + 1)) (by decide))
        · have : line = "" := by simpa using hl
          subst this
          decide
      · simp at hl
    have hchildLines :
        ((childrenM m el.id).map (fun c => toElementDslF ctx m n (ind + 1) c)).foldl
            (fun acc p => acc ++ [""] ++ p.1) []
          = concatAll (((childrenM m el.id).map (fun c => toElementDslF ctx m n (ind + 1) c)).map
              (fun p => "" :: p.1)) := by
      rw [foldl_lines_eq, List.nil_append]
    constructor
    · rw [toElementDslF_succ]
      simp only [List.countP_cons]
      rw [List.countP_append, List.countP_append, List.countP_append]
      have h1 : (match el.tags with
          | some ts => [tagsLine (ind + 1) ts]
          | none => ([] : List String)).countP (fun s => isElementLine s) = 0 :=
        List.countP_eq_zero.mpr (fun line hl => by simp [htagE line hl])
      have h2 : ((el.links.getD []).map (linkLine ctx (ind + 1))).countP
          (fun s => isElementLine s) = 0 :=
        List.countP_eq_zero.mpr (fun line hl => by simp [hlinkE line hl])
      have h4 : (if el.tags.isSome then [indStr (ind + 1) ++ "\x7d", ""] else []).countP
          (fun s => isElementLine s) = 0 :=
        List.countP_eq_zero.mpr (fun line hl => by simp [hcloseE line hl])
      have h3 : (((childrenM m el.id).map (fun c => toElementDslF ctx m n (ind + 1) c)).foldl
            (fun acc p => acc ++ [""] ++ p.1) []).countP (fun s => isElementLine s)
          = ((childrenM m el.id).map (fun c => subtreeCount m c)).sum := by
        rw [hchildLines, countP_concatAll, List.map_map, List.map_map]
        congr 1
        apply List.map_congr_left
        intro c hc
        simp only [Function.comp]
        rw [List.countP_cons]
        have hblank : isElementLine "" = false := by decide
        rw [(hchild_ih c hc).1]
        simp [hblank]
      rw [h1, h2, h3, h4, elementHeaderLine_isElement hsane ind]
      rw [subtree_decomp hwf hel]
      simp only [if_true]
      omega
    · rw [toElementDslF_succ]
      intro line hline
      rcases List.mem_cons.mp hline with rfl | hline
      · exact elementHeaderLine_notRelation hsane ind
      · rcases List.mem_append.mp hline with hline | hclose
        · rcases List.mem_append.mp hline with hline | hchild
          · rcases List.mem_append.mp hline with htag | hlink
            · exact htagR line htag
            · exact hlinkR line hlink
          · rw [hchildLines] at hchild
            obtain ⟨l, hl, hmem⟩ := mem_concatAll.mp hchild
            simp only [List.map_map, List.mem_map] at hl
            obtain ⟨c, hcmem, hceq⟩ := hl
            rw [← hceq] at hmem
            simp only [Function.comp] at hmem
            rcases List.mem_cons.mp hmem with rfl | hmem
            · decide
            · exact (hchild_ih c hcmem).2 line hmem
        · exact hcloseR line hclose

/-! ### Counting the remaining sections -/

theorem noChar_viewTypeOf {c : Char} (h1 : noChar c "Container") (h2 : noChar c "Component")
    (h3 : noChar c "Code") (h4 : noChar c "Deployment") (k : String) :
    noChar c (viewTypeOf k) := by
  unfold viewTypeOf
  split
  · exact h1
  · split
    · exact h2
    · split
      · exact h3
      · split
        · exact h4
        · exact noChar_empty

theorem containersOf_sub {ctx : DslCtx} {m : ModelIndex} :
    ∀ e ∈ containersOf ctx m, e ∈ m.elements := by
  intro e he
  unfold containersOf rootResultsOf at he
  obtain ⟨l, hl, hel⟩ := mem_concatAll.mp he
  simp only [List.map_map, List.mem_map] at hl
  obtain ⟨r, hr, hreq⟩ := hl
  simp only [Function.comp] at hreq
  have hrm : r ∈ m.elements := (mem_rootElementsM.mp hr).1
  apply toElementDsl_conts_sub (m.elements.length + 1) 1 r hrm
  rw [hreq]
  exact hel

theorem kindsLines_zero {ctx : DslCtx} {m : ModelIndex} (hwf : dslWellFormed ctx m) :
    ∀ line ∈ kindsLines m, isElementLine line = false ∧ isRelationLine line = false := by
  intro line hl
  unfold kindsLines at hl
  obtain ⟨k, hk, rfl⟩ := List.mem_map.mp hl
  have hk2 := mem_dedupeFirst hk
  obtain ⟨el, hel, hkel⟩ := List.mem_map.mp hk2
  have hsane : saneStr k := by
    rw [← hkel]
    exact (hwf.2.2.2.1 el hel).2.1
  exact ⟨isElementLine_false_of_noEq (noChar_append (by decide) (saneStr_noEq hsane)),
    isRelationLine_false_of_noGt (noChar_append (by decide) (saneStr_noGt hsane))⟩

theorem tagsLinesSpec_zero {ctx : DslCtx} {m : ModelIndex} (hwf : dslWellFormed ctx m) :
    ∀ line ∈ tagsLinesSpec m, isElementLine line = false ∧ isRelationLine line = false := by
  intro line hl
  unfold tagsLinesSpec at hl
  obtain ⟨t, ht, rfl⟩ := List.mem_map.mp hl
  have ht2 := mem_dedupeFirst ht
  have hsane : saneStr t := by
    rcases List.mem_append.mp ht2 with hel | hrel
    · obtain ⟨l, hlm, htl⟩ := mem_concatAll.mp hel
      obtain ⟨el, helm, hleq⟩ := List.mem_map.mp hlm
      apply (hwf.2.2.2.1 el helm).2.2.2.2.2.1
      rw [hleq]
      exact htl
    · obtain ⟨l, hlm, htl⟩ := mem_concatAll.mp hrel
      obtain ⟨r, hrm, hleq⟩ := List.mem_map.mp hlm
      apply (hwf.2.2.2.2 r hrm).2.2.2
      rw [hleq]
      exact htl
  exact ⟨isElementLine_false_of_noEq (noChar_append (by decide) (saneStr_noEq hsane)),
    isRelationLine_false_of_noGt (noChar_append (by decide) (saneStr_noGt hsane))⟩

theorem rootLines_counts {ctx : DslCtx} {m : ModelIndex} (hwf : dslWellFormed ctx m) :
    (rootLinesOf ctx m).countP (fun s => isElementLine s) = m.elements.length
    ∧ ∀ line ∈ rootLinesOf ctx m, isRelationLine line = false := by
  have htrav : ∀ r ∈ rootElementsM m,
      ((toElementDslF ctx m (m.elements.length + 1) 1 r).1.countP (fun s => isElementLine s)
          = subtreeCount m r
        ∧ ∀ line ∈ (toElementDslF ctx m (m.elements.length + 1) 1 r).1,
            isRelationLine line = false) := by
    intro r hr
    apply toElementDsl_counts hwf (m.elements.length + 1) r 1 (mem_rootElementsM.mp hr).1
    intro x hx _
    have := id_length_le hwf x hx
    omega
  constructor
  · unfold rootLinesOf rootResultsOf
    rw [countP_concatAll, List.map_map, List.map_map]
    have hcong : ∀ r ∈ rootElementsM m,
        (((fun l => List.countP (fun s => isElementLine s) l) ∘ (fun p => p.1))
            ∘ (fun el => toElementDslF ctx m (m.elements.length + 1) 1 el)) r
          = (fun el => subtreeCount m el) r := by
      intro r hr
      exact (htrav r hr).1
    rw [List.map_congr_left hcong, total_count hwf]
  · intro line hl
    unfold rootLinesOf rootResultsOf at hl
    obtain ⟨l, hlm, hll⟩ := mem_concatAll.mp hl
    simp only [List.map_map, List.mem_map] at hlm
    obtain ⟨r, hr, hreq⟩ := hlm
    simp only [Function.comp] at hreq
    apply (htrav r hr).2
    rw [hreq]
    exact hll

theorem flatViewLines_zero {ctx : DslCtx} {m : ModelIndex} (hwf : dslWellFormed ctx m) :
    ∀ line ∈ flatViewLines (containersOf ctx m),
      isElementLine line = false ∧ isRelationLine line = false := by
  intro line hl
  unfold flatViewLines at hl
  have hinc : ∀ c : Char, c ≠ ' ' → noChar c "include " → noChar c ", " → noChar c "*"
      → noChar c ".*" → noChar c "." →
      (∀ el ∈ containersOf ctx m, ∀ s ∈ el.id, c ∉ s.data) →
      noChar c (indStr 2 ++ "include "
        ++ joinSep ", " ("*" ::
            (((containersOf ctx m).filter (fun el => (el.tags.getD []).contains "scope")).map
              (fun el => fqnStr el.id ++ ".*")))) := by
    intro c hsp hincl hcomma hstar hdotstar hdot hels
    refine noChar_append (noChar_append (noChar_indStr hsp 2) hincl) ?_
    apply noChar_joinSep hcomma
    intro s hs
    rcases List.mem_cons.mp hs with rfl | hs
    · exact hstar
    · obtain ⟨el, helf, rfl⟩ := List.mem_map.mp hs
      have helc : el ∈ containersOf ctx m := List.mem_of_mem_filter helf
      refine noChar_append (noChar_joinSep hdot ?_) hdotstar
      intro seg hseg
      exact hels el helc seg hseg
  rcases List.mem_cons.mp hl with rfl | hl
  · exact ⟨by decide, by decide⟩
  rcases List.mem_cons.mp hl with rfl | hl
  · exact ⟨by decide, by decide⟩
  rcases List.mem_cons.mp hl with rfl | hl
  · constructor
    · apply isElementLine_false_of_noEq
      apply hinc '=' (by decide) (by decide) (by decide) (by decide) (by decide) (by decide)
      intro el helc s hs
      exact saneStr_noEq ((hwf.2.2.2.1 el (containersOf_sub el helc)).1 s hs)
    · apply isRelationLine_false_of_noGt
      apply hinc '>' (by decide) (by decide) (by decide) (by decide) (by decide) (by decide)
      intro el helc s hs
      exact saneStr_noGt ((hwf.2.2.2.1 el (containersOf_sub el helc)).1 s hs)
  rcases List.mem_cons.mp hl with rfl | hl
  · exact ⟨by decide, by decide⟩
  rcases List.mem_cons.mp hl with rfl | hl
  · exact ⟨by decide, by decide⟩
  rcases List.mem_cons.mp hl with rfl | hl
  · exact ⟨by decide, by decide⟩
  · simp at hl

theorem containerViewLines_zero {ctx : DslCtx} {m : ModelIndex} (hwf : dslWellFormed ctx m)
    {el : Elem} (helm : el ∈ m.elements) :
    ∀ line ∈ containerViewLines ctx el,
      isElementLine line = false ∧ isRelationLine line = false := by
  intro line hl
  have hsane := hwf.2.2.2.1 el helm
  unfold containerViewLines at hl
  rcases List.mem_cons.mp hl with rfl | hl
  · constructor
    · apply isElementLine_false_of_noEq
      refine noChar_append (noChar_append (noChar_append (noChar_append
        (noChar_append (noChar_indStr (by decide) 1) (by decide))
        (saneStr_noEq hsane.2.2.2.2.2.2.2)) (by decide))
        (saneFqn_noEq_str hsane.1)) (by decide)
    · apply isRelationLine_false_of_noGt
      refine noChar_append (noChar_append (noChar_append (noChar_append
        (noChar_append (noChar_indStr (by decide) 1) (by decide))
        (saneStr_noGt hsane.2.2.2.2.2.2.2)) (by decide))
        (saneFqn_noGt_str hsane.1)) (by decide)
  rcases List.mem_cons.mp hl with rfl | hl
  · have hsep : ∀ c : Char, noChar c " - " ∨ c = ' ' ∨ c = '-' := by
      intro c
      by_cases h : c = ' ' ∨ c = '-'
      · right; exact h
      · left
        intro hmem
        have : c = ' ' ∨ c = '-' ∨ c = ' ' := by
          have hd : (" - " : String).data = [' ', '-', ' '] := rfl
          rw [hd] at hmem
          simpa using hmem
        rcases this with h1 | h1 | h1 <;> exact h (by simp [h1])
    constructor
    · apply isElementLine_false_of_noEq
      refine noChar_append (noChar_append (noChar_append (noChar_append
        (noChar_append (noChar_indStr (by decide) 2) (by decide))
        (saneStr_noEq hsane.2.2.1)) ?_)
        (noChar_viewTypeOf (by decide) (by decide) (by decide) (by decide) el.kind))
        (by decide)
      split
      · decide
      · exact noChar_empty
    · apply isRelationLine_false_of_noGt
      refine noChar_append (noChar_append (noChar_append (noChar_append
        (noChar_append (noChar_indStr (by decide) 2) (by decide))
        (saneStr_noGt hsane.2.2.1)) ?_)
        (noChar_viewTypeOf (by decide) (by decide) (by decide) (by decide) el.kind))
        (by decide)
      split
      · decide
      · exact noChar_empty
  rcases List.mem_cons.mp hl with rfl | hl
  · exact ⟨by decide, by decide⟩
  rcases List.mem_cons.mp hl with rfl | hl
  · exact ⟨by decide, by decide⟩
  · simp at hl

/-! ### Claim C8, amended theorem -/

/-- C8 (amended): the emitted text is the newline-join of the emitter's line
list, and for every well-formed model index — distinct element ids, parent
paths present, and text fields (ids, kinds, titles, descriptions,
technologies, tags, relation ends and titles, encoded links, dasherized view
names) free of the DSL's own tokens `=`, `>`, `/` and newlines — that line
list contains exactly N non-comment element-definition lines (one header per
element, each element rendered exactly once by the root-plus-children
traversal) and exactly M non-comment relation lines. -/
theorem C8_dsl_roundtrip (ctx : DslCtx) (m : ModelIndex) (hwf : dslWellFormed ctx m) :
    modelIndexToDsl ctx m = joinSep "\n" (modelDslLines ctx m)
    ∧ (modelDslLines ctx m).countP (fun s => isElementLine s) = m.elements.length
    ∧ (modelDslLines ctx m).countP (fun s => isRelationLine s) = m.relations.length := by
  have hspecE : (["specification \x7b"] : List String).countP (fun s => isElementLine s) = 0 := by
    decide
  have hspecR : (["specification \x7b"] : List String).countP (fun s => isRelationLine s) = 0 := by
    decide
  have hbracesE : (["\x7d", "model \x7b"] : List String).countP (fun s => isElementLine s) = 0 := by
    decide
  have hbracesR : (["\x7d", "model \x7b"] : List String).countP (fun s => isRelationLine s) = 0 := by
    decide
  have hcloseE : (["\x7d", ""] : List String).countP (fun s => isElementLine s) = 0 := by decide
  have hcloseR : (["\x7d", ""] : List String).countP (fun s => isRelationLine s) = 0 := by decide
  have hviewsE : viewsHeadLines.countP (fun s => isElementLine s) = 0 := by decide
  have hviewsR : viewsHeadLines.countP (fun s => isRelationLine s) = 0 := by decide
  have hkindsE : (kindsLines m).countP (fun s => isElementLine s) = 0 :=
    List.countP_eq_zero.mpr (fun l hl => by simp [(kindsLines_zero hwf l hl).1])
  have hkindsR : (kindsLines m).countP (fun s => isRelationLine s) = 0 :=
    List.countP_eq_zero.mpr (fun l hl => by simp [(kindsLines_zero hwf l hl).2])
  have htagsE : (tagsLinesSpec m).countP (fun s => isElementLine s) = 0 :=
    List.countP_eq_zero.mpr (fun l hl => by simp [(tagsLinesSpec_zero hwf l hl).1])
  have htagsR : (tagsLinesSpec m).countP (fun s => isRelationLine s) = 0 :=
    List.countP_eq_zero.mpr (fun l hl => by simp [(tagsLinesSpec_zero hwf l hl).2])
  have hrootE : (rootLinesOf ctx m).countP (fun s => isElementLine s) = m.elements.length :=
    (rootLines_counts hwf).1
  have hrootR : (rootLinesOf ctx m).countP (fun s => isRelationLine s) = 0 :=
    List.countP_eq_zero.mpr (fun l hl => by simp [(rootLines_counts hwf).2 l hl])
  have hrelE : (m.relations.map relationLine).countP (fun s => isElementLine s) = 0 :=
    List.countP_eq_zero.mpr (fun l hl => by
      obtain ⟨r, hr, rfl⟩ := List.mem_map.mp hl
      simp [relationLine_notElement (hwf.2.2.2.2 r hr)])
  have hrelR : (m.relations.map relationLine).countP (fun s => isRelationLine s)
      = m.relations.length := by
    rw [show (m.relations.map relationLine).countP (fun s => isRelationLine s)
        = (m.relations.map relationLine).length from
      List.countP_eq_length.mpr (fun l hl => by
        obtain ⟨r, hr, rfl⟩ := List.mem_map.mp hl
        simp [relationLine_isRelation (hwf.2.2.2.2 r hr)])]
    simp
  have hflatE : (if ctx.scopes then flatViewLines (containersOf ctx m) else []).countP
      (fun s => isElementLine s) = 0 := by
    split
    · exact List.countP_eq_zero.mpr (fun l hl => by simp [(flatViewLines_zero hwf l hl).1])
    · rfl
  have hflatR : (if ctx.scopes then flatViewLines (containersOf ctx m) else []).countP
      (fun s => isRelationLine s) = 0 := by
    split
    · exact List.countP_eq_zero.mpr (fun l hl => by simp [(flatViewLines_zero hwf l hl).2])
    · rfl
  have hcontE : (concatAll ((containersOf ctx m).map (containerViewLines ctx))).countP
      (fun s => isElementLine s) = 0 := by
    apply List.countP_eq_zero.mpr
    intro l hl
    obtain ⟨lv, hlv, hll⟩ := mem_concatAll.mp hl
    obtain ⟨el, helc, rfl⟩ := List.mem_map.mp hlv
    simp [(containerViewLines_zero hwf (containersOf_sub el helc) l hll).1]
  have hcontR : (concatAll ((containersOf ctx m).map (containerViewLines ctx))).countP
      (fun s => isRelationLine s) = 0 := by
    apply List.countP_eq_zero.mpr
    intro l hl
    obtain ⟨lv, hlv, hll⟩ := mem_concatAll.mp hl
    obtain ⟨el, helc, rfl⟩ := List.mem_map.mp hlv
    simp [(containerViewLines_zero hwf (containersOf_sub el helc) l hll).2]
  refine ⟨rfl, ?_, ?_⟩
  · unfold modelDslLines
    simp only [List.countP_append]
    rw [hspecE, hkindsE, htagsE, hbracesE, hrootE, hrelE, hcloseE, hviewsE, hflatE, hcontE]
    omega
  · unfold modelDslLines
    simp only [List.countP_append]
    rw [hspecR, hkindsR, htagsR, hbracesR, hrootR, hrelR, hcloseR, hviewsR, hflatR, hcontR]
    omega

/-- A small well-formed model for the C8 witness: a parent element, a child
element, and one relation from the child to the parent. -/
def exWfModel : ModelIndex :=
  ⟨[⟨["a"], "widget", "Alpha", "", none, some ["widget"], none⟩,
    ⟨["a", "b"], "widget", "Beta", "desc", some "React component", some ["widget"], none⟩],
   [⟨["a", "b"], ["a"], some ["reference"], "ab_reference_a", "reference"⟩]⟩

/-- Witness for C8 (amended): on the concrete two-element, one-relation
well-formed model the counts are exactly 2 and 1. -/
theorem C8_dsl_roundtrip_witness :
    modelIndexToDsl exDslCtx exWfModel = joinSep "\n" (modelDslLines exDslCtx exWfModel)
    ∧ (modelDslLines exDslCtx exWfModel).countP (fun s => isElementLine s)
        = exWfModel.elements.length
    ∧ (modelDslLines exDslCtx exWfModel).countP (fun s => isRelationLine s)
        = exWfModel.relations.length :=
  C8_dsl_roundtrip exDslCtx exWfModel (by decide)

/-! ## The extraction script's element and relation passes

Embedding of `processDefinitionRange` (extract-react-component-diagram.mts
lines 554-617) and of the body of the relation pass's
`referenceLocations?.forEach` (lines 644-734).

The context bundles the store slice the passes read together with the
collaborators the script delegates to: `getMonikerFromRange` bottoms out in
the vendored base class's `getResultPath`/`getMostSpecificMoniker` (not under
`src/`), `monikerToFqn` delegates to the external `inflection`/`@likec4/core`
string machinery, `testRegex.test` runs the host's regex engine, and the
hover rendering goes through the external `vscode-languageserver-protocol`
markup types; each is therefore taken as an opaque function parameter.
`ModelIndex.addElement`/`addRelation` are modelled from the spec's
collaborator contract (§6). -/

/-- The errors of the external model index: a conflicting element id, or a
relation endpoint that does not exist. -/
inductive AddError where
  | conflictingElement
  | sourceNotFound
  | targetNotFound
deriving DecidableEq, Repr

/-- Modelled from the spec: `ModelIndex.addElement` fails with a validation
error if an element with the same id already exists with different content. -/
def addElementM (m : ModelIndex) (el : Elem) : Except AddError ModelIndex :=
  match m.elements.find? (fun e => e.id == el.id) with
  | some e => if e == el then Except.ok m else Except.error AddError.conflictingElement
  | none => Except.ok { m with elements := m.elements ++ [el] }

/-- Modelled from the spec: `ModelIndex.addRelation` fails with a validation
error distinguishing "source not found" from "target not found". -/
def addRelationM (m : ModelIndex) (r : Rel) : Except AddError ModelIndex :=
  if (m.elements.find? (fun e => e.id == r.source)).isNone then
    Except.error AddError.sourceNotFound
  else if (m.elements.find? (fun e => e.id == r.target)).isNone then
    Except.error AddError.targetNotFound
  else Except.ok { m with relations := m.relations ++ [r] }

/-- The context of the extraction passes: the enhanced store plus the
script's indices and its external collaborators as opaque functions. -/
structure ExtractCtx where
  store : Store
  elements : Nat → Option ExElem
  nextIndexOut : Nat → List Nat
  monikerIndexOut : Nat → List Nat
  getMoniker : RangeV → Option Moniker
  toFqn : Moniker → List String
  isTestUri : String → Bool
  fallbackTitle : Moniker → String
  hoverDescr : Nat → String
  humanizeFn : String → String

/-- `inputStore.getDocumentFromRange(range)?.uri ?? ""`. -/
def docUriOf (store : Store) (r : RangeV) : String :=
  match getDocumentFromRange store r with
  | some d => d.uri
  | none => ""

/-- The state threaded through the element-synthesis pass: the model, the
`resultSetIdsProcessed` set (insertion-ordered), the
`elementDefinitionRanges` map (insertion-ordered), and the console log. -/
structure BuildState where
  model : ModelIndex
  processed : List Nat
  elemDefRanges : List (List String × RangeV)
  log : List String
deriving DecidableEq, Repr

/-- The duplicate-result-set warning
(extract-react-component-diagram.mts lines 558-563). -/
def dupWarnMsg (ctx : ExtractCtx) (rsid : Nat) (dr : RangeV) : String :=
  "Already processed resultSetId " ++ toString rsid ++ " referenced by definition range ["
    ++ toString dr.id ++ "](" ++ getLinkFromRange ctx.store dr ++ ")"

/-- The widget element `processDefinitionRange` builds for a definition
range's result set (extract-react-component-diagram.mts lines 598-616): the
title is the range tag's text, falling back (JavaScript's `??`) to the
externally titleized moniker identifier; the description comes from the
hover result; a `test` tag is appended when the test-file regex matches the
range's document uri. -/
def widgetElem (ctx : ExtractCtx) (dr : RangeV) (resultSetId : Nat)
    (tscMoniker : Moniker) : Elem :=
  { id := ctx.toFqn tscMoniker
    kind := "widget"
    title := match dr.tag with
             | some t => t.text
             | none => ctx.fallbackTitle tscMoniker
    description := ctx.hoverDescr resultSetId
    technology := some "React component"
    tags := some (["widget", "component", "react"]
      ++ (if ctx.isTestUri (docUriOf ctx.store dr) then ["test"] else []))
    links := none }

/-- `processDefinitionRange` (extract-react-component-diagram.mts lines
554-617): read the definition range's result set (crashing when the `next`
index has no entry), skip with a warning when the result set was already
processed, otherwise record it, resolve the single tsc moniker (throwing on
zero or several), build the widget element and add it to the model, and
remember the range under the new id. -/
def processDefinitionRangeStep (ctx : ExtractCtx) (st : BuildState) (dr : RangeV) :
    Except String BuildState :=
  match (ctx.nextIndexOut dr.id).head? with
  | none => Except.error "TypeError: no next edge recorded for definition range"
  | some resultSetId =>
    if resultSetId ∈ st.processed then
      Except.ok { st with log := st.log ++ [dupWarnMsg ctx resultSetId dr] }
    else
      match selectTscMoniker ctx.elements ctx.monikerIndexOut resultSetId with
      | Except.error e => Except.error e
      | Except.ok tscMoniker =>
        match addElementM st.model (widgetElem ctx dr resultSetId tscMoniker) with
        | Except.error _ => Except.error "InvalidModelError: addElement failed"
        | Except.ok m2 =>
          Except.ok { st with
                      model := m2,
                      processed := st.processed ++ [resultSetId],
                      elemDefRanges := st.elemDefRanges
                        ++ [(ctx.toFqn tscMoniker, dr)] }

/-- The pass over a list of definition ranges; a thrown error aborts it. -/
def runDefRanges (ctx : ExtractCtx) : BuildState → List RangeV → Except String BuildState
  | st, [] => Except.ok st
  | st, dr :: rest =>
    match processDefinitionRangeStep ctx st dr with
    | Except.ok st2 => runDefRanges ctx st2 rest
    | Except.error e => Except.error e

/-- The state minus its log: the model, the processed set and the recorded
definition ranges. -/
def stripBuild (st : BuildState) : ModelIndex × List Nat × List (List String × RangeV) :=
  (st.model, st.processed, st.elemDefRanges)

/-- Keep only the definition ranges whose result set is new at that point of
the pass (the first occurrence of each result-set id; ranges whose `next`
lookup would crash are kept, since the pass aborts on them anyway). -/
def filterFirstNew (ctx : ExtractCtx) : List Nat → List RangeV → List RangeV
  | _, [] => []
  | seen, dr :: rest =>
    match (ctx.nextIndexOut dr.id).head? with
    | some r =>
      if r ∈ seen then filterFirstNew ctx seen rest
      else dr :: filterFirstNew ctx (seen ++ [r]) rest
    | none => dr :: filterFirstNew ctx seen rest

/-! ## The relation pass -/

/-- The state threaded through the relation pass. -/
structure RelPassState where
  model : ModelIndex
  log : List String
deriving DecidableEq, Repr

/-- The locate-failure error message
(extract-react-component-diagram.mts line 660). -/
def noDefRangeMsg (loc : Location) : String :=
  "ERROR: No definition range found for " ++ locationToString loc

/-- The missing-moniker error message (lines 672-677); a missing tag prints
as JavaScript's `undefined`. -/
def noMonikerMsg (ctx : ExtractCtx) (dr : RangeV) : String :=
  "ERROR: No moniker found for "
    ++ (match dr.tag with
        | some t => t.text
        | none => "undefined")
    ++ " at " ++ getLinkFromRange ctx.store dr

/-- The self-reference error message (lines 687-693). -/
def selfRefMsg (rid : List String) : String :=
  "ERROR: Self-reference found for " ++ fqnStr rid ++ " from different ranges"

/-- `DefinitionRange.is`: a range vertex tagged as a definition. -/
def isDefinitionRangeB (r : RangeV) : Bool :=
  match r.tag with
  | some t => t.type == RangeTagType.definition
  | none => false

/-- Whether the relation pass fails to locate an enclosing definition range
for the reference position: the ranges-from-position lookup yields nothing,
or its first entry is not a definition range. -/
def locateFailedB (store : Store) (loc : Location) : Bool :=
  match (findFullRangesFromPosition store loc.uri loc.range.start).bind List.head? with
  | none => true
  | some dr => ! isDefinitionRangeB dr

/-- The reference relation built by the relation pass (lines 697-703): tags
`["reference"]`, id `<source>_reference_<target>`, title the externally
humanized tag name. -/
def refRelation (ctx : ExtractCtx) (referenceId id : List String) : Rel :=
  { source := referenceId
    target := id
    tags := some ["reference"]
    rid := fqnStr referenceId ++ "_reference_" ++ fqnStr id
    title := ctx.humanizeFn "reference" }

/-- The placeholder element the catch branch synthesizes when the relation's
source does not exist yet (lines 708-731). -/
def unknownElem (ctx : ExtractCtx) (definitionRange : RangeV)
    (referencePosition : Location) (mon : Moniker) : Elem :=
  { id := ctx.toFqn mon
    kind := "widget"
    title := match definitionRange.tag with
             | some t => t.text
             | none => ctx.fallbackTitle mon
    description := "Unknown element added for relation to connect to"
    technology := none
    tags := some (["unknown"]
      ++ (if ctx.isTestUri (docUriOf ctx.store definitionRange) then ["test"] else []))
    links := some [getLinkFromRange ctx.store definitionRange,
      locationToString referencePosition] }

/-- One iteration of the relation pass's `referenceLocations?.forEach`
(extract-react-component-diagram.mts lines 644-734): locate the enclosing
definition range (log and skip on failure), skip silent self-references by
range, resolve the moniker (log and skip when absent), derive the source id
(log and skip when it equals the target), then `model.addRelation` inside the
script's try/catch — on "Source of relation not found" synthesize the unknown
element and retry (both uncaught inside the catch), any other error is
swallowed by the catch. -/
def relationStep (ctx : ExtractCtx) (id : List String) (reference : RangeV)
    (st : RelPassState) (referencePosition : Location) : Except String RelPassState :=
  match (findFullRangesFromPosition ctx.store referencePosition.uri
      referencePosition.range.start).bind List.head? with
  | none => Except.ok { st with log := st.log ++ [noDefRangeMsg referencePosition] }
  | some definitionRange =>
    if ¬ isDefinitionRangeB definitionRange then
      Except.ok { st with log := st.log ++ [noDefRangeMsg referencePosition] }
    else if definitionRange == reference then
      Except.ok st
    else
      match ctx.getMoniker definitionRange with
      | none => Except.ok { st with log := st.log ++ [noMonikerMsg ctx definitionRange] }
      | some mon =>
        if ctx.toFqn mon == id then
          Except.ok { st with log := st.log ++ [selfRefMsg (ctx.toFqn mon)] }
        else
          match addRelationM st.model (refRelation ctx (ctx.toFqn mon) id) with
          | Except.ok m2 => Except.ok { st with model := m2 }
          | Except.error AddError.sourceNotFound =>
            match addElementM st.model
                (unknownElem ctx definitionRange referencePosition mon) with
            | Except.error _ => Except.error "InvalidModelError: addElement failed"
            | Except.ok m2 =>
              match addRelationM m2 (refRelation ctx (ctx.toFqn mon) id) with
              | Except.error _ => Except.error "InvalidModelError: addRelation failed"
              | Except.ok m3 => Except.ok { st with model := m3 }
          | Except.error _ => Except.ok st

/-- The relation pass over the reference locations of one element. -/
def runRel (ctx : ExtractCtx) (id : List String) (reference : RangeV) :
    RelPassState → List Location → Except String RelPassState
  | st, [] => Except.ok st
  | st, loc :: rest =>
    match relationStep ctx id reference st loc with
    | Except.ok st2 => runRel ctx id reference st2 rest
    | Except.error e => Except.error e

/-! ### Lemmas for the element pass (C7) -/

/-- A step reads only the log-free part of the state: changing the incoming
log does not change the stripped result. -/
theorem processStep_strip_congr (ctx : ExtractCtx) (m : ModelIndex) (p : List Nat)
    (e : List (List String × RangeV)) (l l' : List String) (dr : RangeV) :
    (processDefinitionRangeStep ctx ⟨m, p, e, l⟩ dr).map stripBuild
      = (processDefinitionRangeStep ctx ⟨m, p, e, l'⟩ dr).map stripBuild := by
  unfold processDefinitionRangeStep
  cases hh : (ctx.nextIndexOut dr.id).head? with
  | none => rfl
  | some rsid =>
    by_cases hmem : rsid ∈ p
    · simp [hmem, stripBuild, Except.map]
    · simp only [hmem]
      cases hsel : selectTscMoniker ctx.elements ctx.monikerIndexOut rsid with
      | error e2 => simp [hmem]
      | ok tsc =>
        cases hadd : addElementM m (widgetElem ctx dr rsid tsc) with
        | error e3 => simp [hmem, hadd]
        | ok m2 => simp [hmem, hadd, stripBuild, Except.map]

/-- The whole element pass reads only the log-free part of the state. -/
theorem runDefRanges_strip_congr (ctx : ExtractCtx) (drs : List RangeV) :
    ∀ (m : ModelIndex) (p : List Nat) (e : List (List String × RangeV))
      (l l' : List String),
    (runDefRanges ctx ⟨m, p, e, l⟩ drs).map stripBuild
      = (runDefRanges ctx ⟨m, p, e, l'⟩ drs).map stripBuild := by
  induction drs with
  | nil =>
    intro m p e l l'
    rfl
  | cons dr rest ih =>
    intro m p e l l'
    have hstep := processStep_strip_congr ctx m p e l l' dr
    simp only [runDefRanges]
    cases h1 : processDefinitionRangeStep ctx ⟨m, p, e, l⟩ dr with
    | error e1 =>
      cases h2 : processDefinitionRangeStep ctx ⟨m, p, e, l'⟩ dr with
      | error e2 =>
        rw [h1, h2] at hstep
        simp only [Except.map] at hstep
        injection hstep with he
        rw [he]
      | ok st2 =>
        rw [h1, h2] at hstep
        simp [Except.map] at hstep
    | ok st2 =>
      cases h2 : processDefinitionRangeStep ctx ⟨m, p, e, l'⟩ dr with
      | error e2 =>
        rw [h1, h2] at hstep
        simp [Except.map] at hstep
      | ok st2' =>
        rw [h1, h2] at hstep
        simp only [Except.map] at hstep
        injection hstep with hs
        have hm : st2.model = st2'.model := congrArg (fun t => t.1) hs
        have hp : st2.processed = st2'.processed := congrArg (fun t => t.2.1) hs
        have he : st2.elemDefRanges = st2'.elemDefRanges := congrArg (fun t => t.2.2) hs
        calc (runDefRanges ctx st2 rest).map stripBuild
            = (runDefRanges ctx
                ⟨st2.model, st2.processed, st2.elemDefRanges, st2'.log⟩ rest).map
                stripBuild :=
              ih st2.model st2.processed st2.elemDefRanges st2.log st2'.log
          _ = (runDefRanges ctx st2' rest).map stripBuild := by rw [hm, hp, he]

/-- Inversion: a successful fresh (non-duplicate) step appends exactly the
result-set id to the processed set. -/
theorem processStep_ok_processed (ctx : ExtractCtx) (st st2 : BuildState) (dr : RangeV)
    (r : Nat) (hh : (ctx.nextIndexOut dr.id).head? = some r) (hmem : r ∉ st.processed)
    (hok : processDefinitionRangeStep ctx st dr = Except.ok st2) :
    st2.processed = st.processed ++ [r] := by
  unfold processDefinitionRangeStep at hok
  simp only [hh] at hok
  rw [if_neg hmem] at hok
  cases hsel : selectTscMoniker ctx.elements ctx.monikerIndexOut r with
  | error e1 =>
    simp only [hsel] at hok
    exact Except.noConfusion hok
  | ok tsc =>
    simp only [hsel] at hok
    cases hadd : addElementM st.model (widgetElem ctx dr r tsc) with
    | error e2 =>
      simp only [hadd] at hok
      exact Except.noConfusion hok
    | ok m2 =>
      simp only [hadd, Except.ok.injEq] at hok
      rw [← hok]

/-- The element pass over a range list equals, modulo the console log, the
pass over the sublist keeping only the first definition range seen per
result set. -/
theorem runDefRanges_dedupe (ctx : ExtractCtx) (drs : List RangeV) :
    ∀ st : BuildState,
    (runDefRanges ctx st drs).map stripBuild
      = (runDefRanges ctx st (filterFirstNew ctx st.processed drs)).map stripBuild := by
  induction drs with
  | nil =>
    intro st
    rfl
  | cons dr rest ih =>
    intro st
    cases hh : (ctx.nextIndexOut dr.id).head? with
    | none =>
      have hf : filterFirstNew ctx st.processed (dr :: rest)
          = dr :: filterFirstNew ctx st.processed rest := by
        simp [filterFirstNew, hh]
      have hstep : processDefinitionRangeStep ctx st dr
          = Except.error "TypeError: no next edge recorded for definition range" := by
        unfold processDefinitionRangeStep
        rw [hh]
      rw [hf]
      simp [runDefRanges, hstep]
    | some r =>
      by_cases hmem : r ∈ st.processed
      · have hstep : processDefinitionRangeStep ctx st dr
            = Except.ok { st with log := st.log ++ [dupWarnMsg ctx r dr] } := by
          unfold processDefinitionRangeStep
          rw [hh]
          simp [hmem]
        have hf : filterFirstNew ctx st.processed (dr :: rest)
            = filterFirstNew ctx st.processed rest := by
          simp [filterFirstNew, hh, hmem]
        rw [hf]
        have h1 : runDefRanges ctx st (dr :: rest)
            = runDefRanges ctx { st with log := st.log ++ [dupWarnMsg ctx r dr] } rest := by
          simp [runDefRanges, hstep]
        rw [h1]
        calc (runDefRanges ctx { st with log := st.log ++ [dupWarnMsg ctx r dr] } rest).map
              stripBuild
            = (runDefRanges ctx
                ⟨st.model, st.processed, st.elemDefRanges, st.log⟩ rest).map stripBuild :=
              runDefRanges_strip_congr ctx rest st.model st.processed st.elemDefRanges
                (st.log ++ [dupWarnMsg ctx r dr]) st.log
          _ = (runDefRanges ctx st (filterFirstNew ctx st.processed rest)).map
                stripBuild := ih st
      · have hf : filterFirstNew ctx st.processed (dr :: rest)
            = dr :: filterFirstNew ctx (st.processed ++ [r]) rest := by
          simp [filterFirstNew, hh, hmem]
        rw [hf]
        cases hstep : processDefinitionRangeStep ctx st dr with
        | error e1 => simp [runDefRanges, hstep]
        | ok st2 =>
          have hp2 : st2.processed = st.processed ++ [r] :=
            processStep_ok_processed ctx st st2 dr r hh hmem hstep
          simp only [runDefRanges, hstep]
          rw [← hp2]
          exact ih st2

/-- C7: a definition range whose result set was already processed is skipped
with a single console warning — the step succeeds (no error is raised) and
the model, the processed set and the recorded definition ranges are all
untouched, so no element is synthesized for it; consequently, modulo the
console log, the element-synthesis pass over any range list equals the pass
over the sublist keeping only the first definition range seen per result
set: the first range determines the result set's element, and at most one
element is ever synthesized per result set. -/
theorem C7_duplicate_resultSet (ctx : ExtractCtx) (st : BuildState) (dr : RangeV)
    (rsid : Nat) (drs : List RangeV)
    (hh : (ctx.nextIndexOut dr.id).head? = some rsid)
    (hmem : rsid ∈ st.processed) :
    processDefinitionRangeStep ctx st dr
      = Except.ok { st with log := st.log ++ [dupWarnMsg ctx rsid dr] }
    ∧ (runDefRanges ctx st drs).map stripBuild
      = (runDefRanges ctx st (filterFirstNew ctx st.processed drs)).map stripBuild := by
  constructor
  · unfold processDefinitionRangeStep
    rw [hh]
    simp [hmem]
  · exact runDefRanges_dedupe ctx drs st

/-- Witness context for C7: trivial collaborators; every definition range's
`next` edge points at result set 7. -/
def c7Ctx : ExtractCtx :=
  { store := exStoreEmpty
    elements := fun _ => none
    nextIndexOut := fun _ => [7]
    monikerIndexOut := fun _ => []
    getMoniker := fun _ => none
    toFqn := fun _ => ["x"]
    isTestUri := fun _ => false
    fallbackTitle := fun _ => "F"
    hoverDescr := fun _ => ""
    humanizeFn := fun s => s }

/-- Witness range for C7. -/
def c7Range : RangeV := ⟨1, ⟨0, 0⟩, ⟨0, 1⟩, none⟩

/-- Witness state for C7: result set 7 already processed. -/
def c7State : BuildState := ⟨⟨[], []⟩, [7], [], []⟩

/-- Witness for C7: on a state that has already processed result set 7, the
duplicate range is skipped with the warning and the deduplicated pass agrees
with the full one. -/
theorem C7_duplicate_resultSet_witness :
    (c7Ctx.nextIndexOut c7Range.id).head? = some 7
    ∧ (7 : Nat) ∈ c7State.processed
    ∧ (processDefinitionRangeStep c7Ctx c7State c7Range
        = Except.ok { c7State with log := c7State.log ++ [dupWarnMsg c7Ctx 7 c7Range] }
      ∧ (runDefRanges c7Ctx c7State [c7Range, c7Range]).map stripBuild
        = (runDefRanges c7Ctx c7State
            (filterFirstNew c7Ctx c7State.processed [c7Range, c7Range])).map stripBuild) :=
  ⟨by decide, by decide,
    C7_duplicate_resultSet c7Ctx c7State c7Range 7 [c7Range, c7Range]
      (by decide) (by decide)⟩

/-! ### Lemmas for the relation pass (C6) -/

/-- A relation-pass iteration reads only the model part of the state:
changing the incoming log does not change the model part of the result. -/
theorem relStep_model_congr (ctx : ExtractCtx) (id : List String) (reference : RangeV)
    (m : ModelIndex) (l l' : List String) (loc : Location) :
    (relationStep ctx id reference ⟨m, l⟩ loc).map RelPassState.model
      = (relationStep ctx id reference ⟨m, l'⟩ loc).map RelPassState.model := by
  unfold relationStep
  cases hh : (findFullRangesFromPosition ctx.store loc.uri loc.range.start).bind
      List.head? with
  | none => rfl
  | some dR =>
    by_cases hdef : ¬ isDefinitionRangeB dR = true
    · simp [hdef, Except.map]
    · simp only [hdef, if_false, if_neg, ite_not]
      by_cases href : (dR == reference) = true
      · simp [hdef, href, Except.map]
      · simp only [hdef, href]
        cases hmon : ctx.getMoniker dR with
        | none => simp [hdef, href, Except.map]
        | some mon =>
          by_cases hid : (ctx.toFqn mon == id) = true
          · simp [hdef, href, hmon, hid, Except.map]
          · simp only [hdef, href, hmon, hid]
            cases hrel : addRelationM m (refRelation ctx (ctx.toFqn mon) id) with
            | ok m2 => simp [hdef, href, hid, hrel, Except.map]
            | error err =>
              cases err with
              | sourceNotFound =>
                cases hel : addElementM m (unknownElem ctx dR loc mon) with
                | error e2 => simp [hdef, href, hid, hrel, hel, Except.map]
                | ok m2 =>
                  cases hrel2 : addRelationM m2 (refRelation ctx (ctx.toFqn mon) id) with
                  | error e3 => simp [hdef, href, hid, hrel, hel, hrel2, Except.map]
                  | ok m3 => simp [hdef, href, hid, hrel, hel, hrel2, Except.map]
              | targetNotFound => simp [hdef, href, hid, hrel, Except.map]
              | conflictingElement => simp [hdef, href, hid, hrel, Except.map]

/-- The whole relation pass reads only the model part of the state. -/
theorem runRel_model_congr (ctx : ExtractCtx) (id : List String) (reference : RangeV)
    (locs : List Location) :
    ∀ (m : ModelIndex) (l l' : List String),
    (runRel ctx id reference ⟨m, l⟩ locs).map RelPassState.model
      = (runRel ctx id reference ⟨m, l'⟩ locs).map RelPassState.model := by
  induction locs with
  | nil =>
    intro m l l'
    rfl
  | cons loc rest ih =>
    intro m l l'
    have hstep := relStep_model_congr ctx id reference m l l' loc
    simp only [runRel]
    cases h1 : relationStep ctx id reference ⟨m, l⟩ loc with
    | error e1 =>
      cases h2 : relationStep ctx id reference ⟨m, l'⟩ loc with
      | error e2 =>
        rw [h1, h2] at hstep
        simp only [Except.map] at hstep
        injection hstep with he
        rw [he]
      | ok st2 =>
        rw [h1, h2] at hstep
        simp [Except.map] at hstep
    | ok st2 =>
      cases h2 : relationStep ctx id reference ⟨m, l'⟩ loc with
      | error e2 =>
        rw [h1, h2] at hstep
        simp [Except.map] at hstep
      | ok st2' =>
        rw [h1, h2] at hstep
        simp only [Except.map] at hstep
        injection hstep with hs
        calc (runRel ctx id reference st2 rest).map RelPassState.model
            = (runRel ctx id reference ⟨st2.model, st2'.log⟩ rest).map
                RelPassState.model := ih st2.model st2.log st2'.log
          _ = (runRel ctx id reference st2' rest).map RelPassState.model := by rw [hs]

/-- A locate failure makes the iteration log the error and touch nothing
else. -/
theorem relStep_locateFail (ctx : ExtractCtx) (id : List String) (reference : RangeV)
    (st : RelPassState) (loc : Location)
    (hfail : locateFailedB ctx.store loc = true) :
    relationStep ctx id reference st loc
      = Except.ok { st with log := st.log ++ [noDefRangeMsg loc] } := by
  unfold locateFailedB at hfail
  unfold relationStep
  cases hh : (findFullRangesFromPosition ctx.store loc.uri loc.range.start).bind
      List.head? with
  | none => rfl
  | some dR =>
    simp only [hh, Bool.not_eq_true'] at hfail
    simp [hfail]

/-- Mapping the model through the DSL emitter preserves pass-result
equality. -/
theorem except_map_model_dsl (dctx : DslCtx) (a b : Except String RelPassState)
    (h : a.map RelPassState.model = b.map RelPassState.model) :
    a.map (fun s => modelIndexToDsl dctx s.model)
      = b.map (fun s => modelIndexToDsl dctx s.model) := by
  cases a with
  | error e1 =>
    cases b with
    | error e2 =>
      simp only [Except.map] at h ⊢
      injection h with he
      rw [he]
    | ok s2 => simp [Except.map] at h
  | ok s1 =>
    cases b with
    | error e2 => simp [Except.map] at h
    | ok s2 =>
      simp only [Except.map] at h ⊢
      injection h with hm
      rw [hm]

/-- Dropping a locate-failing location from anywhere in the list leaves the
model part of the pass unchanged. -/
theorem runRel_drop_locateFail (ctx : ExtractCtx) (id : List String)
    (reference : RangeV) (loc : Location)
    (hfail : locateFailedB ctx.store loc = true) (pre : List Location) :
    ∀ (st : RelPassState) (post : List Location),
    (runRel ctx id reference st (pre ++ loc :: post)).map RelPassState.model
      = (runRel ctx id reference st (pre ++ post)).map RelPassState.model := by
  induction pre with
  | nil =>
    intro st post
    have hstep := relStep_locateFail ctx id reference st loc hfail
    simp only [List.nil_append, runRel, hstep]
    calc (runRel ctx id reference { st with log := st.log ++ [noDefRangeMsg loc] }
            post).map RelPassState.model
        = (runRel ctx id reference ⟨st.model, st.log⟩ post).map RelPassState.model :=
          runRel_model_congr ctx id reference post st.model
            (st.log ++ [noDefRangeMsg loc]) st.log
      _ = (runRel ctx id reference st post).map RelPassState.model := rfl
  | cons p pre' ih =>
    intro st post
    simp only [List.cons_append, runRel]
    cases h1 : relationStep ctx id reference st p with
    | error e1 => rfl
    | ok st2 => exact ih st2 post

/-- C6: in the relation pass, a reference location whose enclosing definition
range cannot be located (no range comes back, or the first one is not a
definition range) makes that iteration log the locate error and change
nothing else — in particular no relation is added — the pass continues with
the remaining reference locations, and the model it produces, and hence the
DSL text emitted from that model, are the same as if the failing location
were absent. -/
theorem C6_relation_pass (ctx : ExtractCtx) (dctx : DslCtx) (id : List String)
    (reference : RangeV) (st : RelPassState) (loc : Location)
    (pre post : List Location)
    (hfail : locateFailedB ctx.store loc = true) :
    relationStep ctx id reference st loc
      = Except.ok { st with log := st.log ++ [noDefRangeMsg loc] }
    ∧ runRel ctx id reference st (loc :: post)
      = runRel ctx id reference { st with log := st.log ++ [noDefRangeMsg loc] } post
    ∧ (runRel ctx id reference st (pre ++ loc :: post)).map RelPassState.model
      = (runRel ctx id reference st (pre ++ post)).map RelPassState.model
    ∧ (runRel ctx id reference st (pre ++ loc :: post)).map
        (fun s => modelIndexToDsl dctx s.model)
      = (runRel ctx id reference st (pre ++ post)).map
        (fun s => modelIndexToDsl dctx s.model) := by
  have hstep := relStep_locateFail ctx id reference st loc hfail
  have hdrop := runRel_drop_locateFail ctx id reference loc hfail pre st post
  refine ⟨hstep, ?_, hdrop, except_map_model_dsl dctx _ _ hdrop⟩
  simp only [runRel, hstep]

/-- Witness context for C6: trivial collaborators over the empty store, where
every position lookup comes back empty. -/
def c6Ctx : ExtractCtx :=
  { store := exStoreEmpty
    elements := fun _ => none
    nextIndexOut := fun _ => []
    monikerIndexOut := fun _ => []
    getMoniker := fun _ => none
    toFqn := fun _ => ["x"]
    isTestUri := fun _ => false
    fallbackTitle := fun _ => "F"
    hoverDescr := fun _ => ""
    humanizeFn := fun s => s }

/-- Witness DSL context for C6. -/
def c6DslCtx : DslCtx := ⟨false, fun s => s, fun s => s⟩

/-- Witness reference locations for C6. -/
def c6Loc : Location := ⟨"file:///a.ts", ⟨⟨0, 0⟩, ⟨0, 1⟩⟩⟩

/-- A second witness reference location for C6, standing before and after the
failing one. -/
def c6Loc2 : Location := ⟨"file:///b.ts", ⟨⟨1, 0⟩, ⟨1, 1⟩⟩⟩

/-- Witness state for C6: the empty model. -/
def c6State : RelPassState := ⟨⟨[], []⟩, []⟩

/-- Witness definition range for C6's current element. -/
def c6Ref : RangeV := ⟨2, ⟨0, 0⟩, ⟨0, 1⟩, none⟩

/-- Witness for C6: on the empty store the location fails to locate, the
iteration only logs, and dropping it does not change the produced model or
its DSL rendering. -/
theorem C6_relation_pass_witness :
    locateFailedB c6Ctx.store c6Loc = true
    ∧ (relationStep c6Ctx ["a"] c6Ref c6State c6Loc
        = Except.ok { c6State with log := c6State.log ++ [noDefRangeMsg c6Loc] }
      ∧ runRel c6Ctx ["a"] c6Ref c6State (c6Loc :: [c6Loc2])
        = runRel c6Ctx ["a"] c6Ref
            { c6State with log := c6State.log ++ [noDefRangeMsg c6Loc] } [c6Loc2]
      ∧ (runRel c6Ctx ["a"] c6Ref c6State ([c6Loc2] ++ c6Loc :: [c6Loc2])).map
          RelPassState.model
        = (runRel c6Ctx ["a"] c6Ref c6State ([c6Loc2] ++ [c6Loc2])).map
          RelPassState.model
      ∧ (runRel c6Ctx ["a"] c6Ref c6State ([c6Loc2] ++ c6Loc :: [c6Loc2])).map
          (fun s => modelIndexToDsl c6DslCtx s.model)
        = (runRel c6Ctx ["a"] c6Ref c6State ([c6Loc2] ++ [c6Loc2])).map
          (fun s => modelIndexToDsl c6DslCtx s.model)) :=
  ⟨by decide,
    C6_relation_pass c6Ctx c6DslCtx ["a"] c6Ref c6State c6Loc [c6Loc2] [c6Loc2]
      (by decide)⟩

end DiagramTool
